import Mathlib

/-!
Verification of the clickup-crawler repository's core algorithms against its
specification.  The TypeScript source is shallowly embedded: JSON values
become the inductive `JVal`, the CSV utilities (`src/csv-utils.ts`, provided
as `src/unnamed/part_000`), the crawler's tree/page/markdown logic
(`src/src/crawler.ts`) and the task-walk orchestration
(`src/src/clickup-client.ts`) become total Lean functions, with JavaScript
exceptions modelled by `Except` and side-effect delivery (the per-task
callback) modelled by explicit state.
-/

/-- A JSON value as produced by the remote API and consumed by the crawler.
JavaScript `undefined` is represented as the absence of a key (an `Option`
at lookup sites), distinct from `JVal.null`. -/
inductive JVal where
  | str (s : String)
  | num (n : Int)
  | bool (b : Bool)
  | null
  | arr (items : List JVal)
  | obj (fields : List (String × JVal))


/-- Characterwise string containment (kernel-reducible form of
`String.contains`). -/
def strHas (s : String) (c : Char) : Bool :=
  s.data.any (fun d => d == c)

/-- Join a list of strings with a separator (kernel-reducible form of
`String.intercalate`, same semantics as JavaScript `Array.join`). -/
def strJoin (sep : String) : List String → String
  | [] => ""
  | [a] => a
  | a :: b :: rest => a ++ sep ++ strJoin sep (b :: rest)

/-- Split a character list at every occurrence of the separator character
(the semantics of JavaScript `"s".split(sep)` for a one-character separator,
and of `String.splitOn` at the character level). -/
def splitOnChar (sep : Char) : List Char → List (List Char)
  | [] => [[]]
  | c :: rest =>
      match splitOnChar sep rest with
      | [] => [[]]
      | g :: gs => if c == sep then [] :: g :: gs else (c :: g) :: gs

/-- Lexicographic comparison of character lists by code point, the order
JavaScript's default string sort uses. -/
def lexLe : List Char → List Char → Bool
  | [], _ => true
  | _ :: _, [] => false
  | a :: as, b :: bs =>
      if a == b then lexLe as bs else decide (a.toNat < b.toNat)

mutual
/-- JavaScript `String(value)` on primitives and arrays (`Array.prototype.toString`
joins elements with `","`, null elements rendering as `""`); plain objects
render as `"[object Object]"`. -/
def jsToString : JVal → String
  | .str s => s
  | .num n => toString n
  | .bool b => if b then "true" else "false"
  | .null => "null"
  | .arr items => strJoin "," (jsArrStrings items)
  | .obj _ => "[object Object]"

/-- The element conversions inside `Array.prototype.join`: null elements
render as the empty string. -/
def jsArrStrings : List JVal → List String
  | [] => []
  | .null :: rest => "" :: jsArrStrings rest
  | v :: rest => jsToString v :: jsArrStrings rest
end

/-- JavaScript truthiness of a field-lookup result (`undefined` = `none`). -/
def jsTruthy : Option JVal → Bool
  | none => false
  | some .null => false
  | some (.bool b) => b
  | some (.num n) => !(n == 0)
  | some (.str s) => !(s == "")
  | some (.arr _) => true
  | some (.obj _) => true

/-- Field access `v.k` on a JSON value: objects look the key up (last
occurrence wins, as JavaScript objects cannot carry duplicate keys and the
embedding tolerates them by letting the later entry shadow); every other
receiver yields `undefined` (`none`).  Lookup on `null` is *not* modelled
here because JavaScript throws there; call sites that can receive `null`
handle it explicitly. -/
def jsGet (v : JVal) (k : String) : Option JVal :=
  match v with
  | .obj fields => (fields.reverse.find? (fun kv => kv.1 == k)).map (·.2)
  | _ => none

/-- JavaScript-object assignment semantics for association lists: setting an
existing key overwrites its value in place (keeping its position), a new key
is appended.  Models `fields[name] = value` in `extractAllFields`. -/
def recSet (m : List (String × JVal)) (k : String) (v : JVal) : List (String × JVal) :=
  if m.any (fun kv => kv.1 == k) then
    m.map (fun kv => if kv.1 == k then (k, v) else kv)
  else
    m ++ [(k, v)]

/-- Lookup in such an association list (unique keys by construction). -/
def recGet (m : List (String × JVal)) (k : String) : Option JVal :=
  (m.find? (fun kv => kv.1 == k)).map (·.2)

/-- JSON string quoting as performed by `JSON.stringify`: the quote, the
backslash and the common control characters are escaped, so the output
never contains a raw line terminator. -/
def jsonQuote (s : String) : String :=
  "\"" ++ String.mk (s.data.flatMap (fun c =>
    if c = '"' then ['\\', '"']
    else if c = '\\' then ['\\', '\\']
    else if c = '\n' then ['\\', 'n']
    else if c = '\r' then ['\\', 'r']
    else if c = '\t' then ['\\', 't']
    else [c])) ++ "\""

mutual
/-- Model of the platform `JSON.stringify` restricted to `JVal` (no
`undefined` members exist in the embedding). -/
def jsonStringify : JVal → String
  | .str s => jsonQuote s
  | .num n => toString n
  | .bool b => if b then "true" else "false"
  | .null => "null"
  | .arr items => "[" ++ strJoin "," (jsonStringifyList items) ++ "]"
  | .obj fields =>
      "\x7b" ++ strJoin "," (jsonStringifyFields fields) ++ "\x7d"

/-- Serialisations of the elements of a JSON array. -/
def jsonStringifyList : List JVal → List String
  | [] => []
  | v :: rest => jsonStringify v :: jsonStringifyList rest

/-- Serialisations `"key":value` of the members of a JSON object. -/
def jsonStringifyFields : List (String × JVal) → List String
  | [] => []
  | (k, v) :: rest => (jsonQuote k ++ ":" ++ jsonStringify v) :: jsonStringifyFields rest
end

/-- `escapeCSV` from csv-utils: every call site in the repository passes a
string (a field name or a `flattenValue` result), so the embedding takes a
`String` directly.  A value containing a comma, a quote or a line break is
wrapped in quotes with internal quotes doubled. -/
def escapeCSV (s : String) : String :=
  if strHas s ',' || strHas s '"' || strHas s '\n' || strHas s '\r' then
    "\"" ++ (String.mk (s.data.flatMap (fun c => if c = '"' then ['"', '"'] else [c]))) ++ "\""
  else
    s

/-- `flattenValue` from csv-utils: primitives stringify, an array whose first
element is object-like (a plain object or a nested array, `null` excluded by
the explicit `value[0] !== null` test) is JSON-stringified, other arrays join
with `"; "`, plain objects JSON-stringify. -/
def flattenValue : JVal → String
  | .null => ""
  | .str s => s
  | .num n => toString n
  | .bool b => if b then "true" else "false"
  | .arr [] => ""
  | .arr (v :: vs) =>
      match v with
      | .obj _ => jsonStringify (.arr (v :: vs))
      | .arr _ => jsonStringify (.arr (v :: vs))
      | _ => strJoin "; " (jsArrStrings (v :: vs))
  | .obj fields => jsonStringify (.obj fields)

/-- `flattenValue` applied to a possibly-`undefined` lookup result
(`flattenValue(undefined)` returns the empty string). -/
def flattenValueOpt : Option JVal → String
  | none => ""
  | some v => flattenValue v

mutual
/-- `extractAllFields` from csv-utils: recursively flattens an object into a
record of dotted field paths.  `null` input yields no fields; a primitive
gets the key `prefix || "value"`; an array becomes one field (stringified if
its first element has `typeof "object"`, which in JavaScript includes nested
arrays *and* `null`, else joined with `"; "`); object fields recurse with a
dotted prefix, `null` members store the empty string, non-object members
(arrays included) store the raw value. -/
def extractAllFields (v : JVal) (pre : String) : List (String × JVal) :=
  match v with
  | .null => []
  | .str s => [(if pre == "" then "value" else pre, .str s)]
  | .num n => [(if pre == "" then "value" else pre, .num n)]
  | .bool b => [(if pre == "" then "value" else pre, .bool b)]
  | .arr items =>
      let key := if pre == "" then "array" else pre
      match items with
      | [] => [(key, .str "")]
      | w :: ws =>
          match w with
          | .obj _ => [(key, .str (jsonStringify (.arr (w :: ws))))]
          | .arr _ => [(key, .str (jsonStringify (.arr (w :: ws))))]
          | .null => [(key, .str (jsonStringify (.arr (w :: ws))))]
          | _ => [(key, .str (strJoin "; " (jsArrStrings (w :: ws))))]
  | .obj fields => extractObjFields fields pre []

/-- The `for (const [key, value] of Object.entries(obj))` loop of
`extractAllFields`, threading the accumulated record. -/
def extractObjFields (fs : List (String × JVal)) (pre : String)
    (acc : List (String × JVal)) : List (String × JVal) :=
  match fs with
  | [] => acc
  | (k, v) :: rest =>
      let fieldName := if pre == "" then k else pre ++ "." ++ k
      let acc' :=
        match v with
        | .null => recSet acc fieldName (.str "")
        | .obj gs =>
            (extractAllFields (.obj gs) fieldName).foldl
              (fun a kv => recSet a kv.1 kv.2) acc
        | w => recSet acc fieldName w
      extractObjFields rest pre acc'
end

/-- `getFieldNames` from csv-utils: the key set of the extracted record, in
insertion order (JavaScript `Set` iteration order). -/
def getFieldNames (v : JVal) : List String :=
  (extractAllFields v "").map (·.1)

/-- Insert a string into a lexicographically sorted list. -/
def insertSorted (a : String) : List String → List String
  | [] => [a]
  | b :: rest => if lexLe a.data b.data then a :: b :: rest else b :: insertSorted a rest

/-- JavaScript default `Array.prototype.sort` on strings: lexicographic
order (an insertion sort here; the sorted result is what the crawler
consumes, not the algorithm). -/
def sortJS (l : List String) : List String :=
  l.foldr insertSorted []

/-- JavaScript `Set.add` on an insertion-ordered, duplicate-free list. -/
def addField (s : List String) (f : String) : List String :=
  if s.contains f then s else s ++ [f]

/-- `objectToCSVRow` from csv-utils: one row in the given field order; fields
the object does not carry render as the empty string. -/
def objectToCSVRow (v : JVal) (fieldOrder : List String) : String :=
  strJoin ","
    (fieldOrder.map (fun f => escapeCSV (flattenValueOpt (recGet (extractAllFields v "") f))))

/-- The `allFields` set accumulated by `objectsToCSV`'s first pass. -/
def csvAllFields (objs : List JVal) : List String :=
  objs.foldl (fun s o => (getFieldNames o).foldl addField s) []

/-- The `fieldData` nested map of `objectsToCSV`, as a lookup function
`field → index → value` (only `.get` is ever applied to it in the source). -/
def csvFieldData (objs : List JVal) : String → Nat → Option JVal :=
  (objs.enum).foldl
    (fun fd io =>
      (extractAllFields io.2 "").foldl
        (fun fd2 kv => fun f j => if f = kv.1 ∧ j = io.1 then some kv.2 else fd2 f j)
        fd)
    (fun _ _ => none)

/-- The lexicographically sorted column order of `objectsToCSV`. -/
def csvSortedFields (objs : List JVal) : List String :=
  sortJS (csvAllFields objs)

/-- The header cells of `objectsToCSV` (escaped field names, sorted). -/
def csvHeaderCells (objs : List JVal) : List String :=
  (csvSortedFields objs).map escapeCSV

/-- The cells of data row `i` of `objectsToCSV`. -/
def csvRowCells (objs : List JVal) (i : Nat) : List String :=
  (csvSortedFields objs).map (fun f => escapeCSV (flattenValueOpt (csvFieldData objs f i)))

/-- `objectsToCSV` from csv-utils: empty input yields the empty string,
otherwise one header line followed by one row per record, rows joined
with a newline. -/
def objectsToCSV (objs : List JVal) : String :=
  if objs.length == 0 then ""
  else
    strJoin "\n"
      (strJoin "," (csvHeaderCells objs) ::
        (List.range objs.length).map (fun i => strJoin "," (csvRowCells objs i)))

/-! ## Streaming CSV export (`exportTasksAsCSV` in `src/src/crawler.ts`) -/

/-- The mutable state of one `exportTasksAsCSV` session: the `headerWritten`
flag, the `allFieldNames` set (insertion order, duplicate-free), the running
`taskCount`, and the persisted file content as a string. -/
structure StreamState where
  headerWritten : Bool
  allFieldNames : List String
  taskCount : Nat
  file : String

/-- The state before the first task arrives (no file has been written). -/
def streamInit : StreamState :=
  { headerWritten := false, allFieldNames := [], taskCount := 0, file := "" }

/-- One invocation of the `writeTask` callback of `exportTasksAsCSV`: merge
the task's field names into the schema; on the first task write the header;
if a later task introduced new fields, split the persisted content on
newlines, replace the first line with the regrown header and write back
`lines.join("\n") + "\n"`; finally append the task's row under the current
sorted schema. -/
def writeTask (st : StreamState) (task : JVal) : StreamState :=
  let taskFields := getFieldNames task
  let fieldsBefore := st.allFieldNames
  let afn := taskFields.foldl addField st.allFieldNames
  let hasNewFields := afn.any (fun f => !(fieldsBefore.contains f))
  let st1 :=
    if !st.headerWritten then
      let sorted := sortJS afn
      { st with headerWritten := true, allFieldNames := afn,
                file := strJoin "," (sorted.map escapeCSV) ++ "\n" }
    else if hasNewFields then
      let lines := (splitOnChar '\n' st.file.data).map String.mk
      let sorted := sortJS afn
      let newHeader := strJoin "," (sorted.map escapeCSV)
      { st with allFieldNames := afn,
                file := strJoin "\n" (lines.set 0 newHeader) ++ "\n" }
    else
      { st with allFieldNames := afn }
  let row := objectToCSVRow task (sortJS st1.allFieldNames)
  { st1 with file := st1.file ++ row ++ "\n", taskCount := st1.taskCount + 1 }

/-- Feeding a sequence of task records through one streaming session. -/
def runStream (tasks : List JVal) : StreamState :=
  tasks.foldl writeTask streamInit

/-! ## Filename sanitisation (`sanitizeFileName` in `src/src/crawler.ts`) -/

/-- The characters the `/[<>:"\/\\|?*]/g` replacement removes. -/
def illegalFileChars : List Char :=
  ['<', '>', ':', '"', '/', '\\', '|', '?', '*']

/-- Membership in the illegal-filename-character class. -/
def isIllegalFileChar (c : Char) : Bool :=
  illegalFileChars.contains c

/-- The character class of the JavaScript regex `\s` (which coincides with
the set `String.prototype.trim` strips): ASCII whitespace, NEL is excluded,
the Unicode space separators, the line separators and the BOM. -/
def jsWhitespace : List Char :=
  ['\t', '\n', '\x0b', '\x0c', '\r', ' ', ' ', ' ',
   ' ', ' ', ' ', ' ', ' ', ' ', ' ',
   ' ', ' ', ' ', ' ', ' ', ' ', ' ',
   ' ', '　', '﻿']

/-- Membership in the JavaScript whitespace class. -/
def isJsWhitespace (c : Char) : Bool :=
  jsWhitespace.contains c

/-- `.replace(/[<>:"\/\\|?*]/g, "_")`: every illegal character becomes `_`. -/
def replaceIllegal (l : List Char) : List Char :=
  l.map (fun c => if isIllegalFileChar c then '_' else c)

/-- `.replace(/\s+/g, "_")`: every maximal whitespace run becomes one `_`. -/
def collapseWhitespace : List Char → List Char
  | [] => []
  | [c] => if isJsWhitespace c then ['_'] else [c]
  | c :: d :: rest =>
      if isJsWhitespace c then
        if isJsWhitespace d then collapseWhitespace (d :: rest)
        else '_' :: collapseWhitespace (d :: rest)
      else c :: collapseWhitespace (d :: rest)

/-- `.replace(/_{2,}/g, "_")`: every run of two or more `_` becomes one. -/
def collapseUnderscores : List Char → List Char
  | [] => []
  | [c] => [c]
  | c :: d :: rest =>
      if c = '_' && d = '_' then collapseUnderscores (d :: rest)
      else c :: collapseUnderscores (d :: rest)

/-- `.trim()`: strip leading and trailing JavaScript whitespace. -/
def trimJS (l : List Char) : List Char :=
  ((l.dropWhile isJsWhitespace).reverse.dropWhile isJsWhitespace).reverse

/-- `sanitizeFileName` from `src/src/crawler.ts`: replace illegal path
characters, replace whitespace runs, collapse underscore runs, then trim. -/
def sanitizeFileName (s : String) : String :=
  String.mk (trimJS (collapseUnderscores (collapseWhitespace (replaceIllegal s.data))))

/-! ## Page placement (`saveDocument` in `src/src/crawler.ts`) -/

/-- A `ClickUpPage` as far as placement is concerned: its identity, display
name and optional parent reference (`none` models both `null` and a missing
`parent_id`; `some ""` models the empty string, which is falsy). -/
structure PageRec where
  id : String
  name : String
  parent_id : Option String
deriving DecidableEq, Repr

/-- The slice of a `DocumentNode` that `saveDocument` reads. -/
structure DocPages where
  id : String
  name : String
  pages : List PageRec
deriving DecidableEq, Repr

/-- `path.join` restricted to the two-argument form the crawler uses. -/
def joinPath (a b : String) : String :=
  a ++ "/" ++ b

/-- The truthiness test `!page.parent_id || page.parent_id === node.id`
classifying a page as a root page of its document. -/
def isRootPage (nodeId : String) (p : PageRec) : Bool :=
  match p.parent_id with
  | none => true
  | some s => s == "" || s == nodeId

/-- The `pageMap.get` lookup of `saveDocument` (a `Map` keyed by page id,
later entries overwriting earlier ones). -/
def pageMapGet (pages : List PageRec) (pid : String) : Option PageRec :=
  pages.foldl (fun acc q => if q.id == pid then some q else acc) none

/-- The sequence of `savePage(page, directory)` calls issued by
`saveDocument` for one document, in program order: each root page into the
document directory followed by its sub-pages (pages whose `parent_id`
equals that root's id) into a sub-directory named after the root; then each
page whose id was not claimed by the root/sub-page passes (an orphan) into a
directory named after its parent page if that parent id exists in the page
map, else into the document directory.  A document without pages issues no
`savePage` calls (it is saved as a single file instead). -/
def placementsRoots (nodeId : String) (docPath : String)
    (pages : List PageRec) : List (PageRec × String) :=
  (pages.filter (isRootPage nodeId)).flatMap (fun r =>
    (r, docPath) ::
      (pages.filter (fun p => p.parent_id == some r.id)).map
        (fun p => (p, joinPath docPath (sanitizeFileName r.name))))

/-- The `savedPageIds` set accumulated before orphan resolution: the ids of
the root pages and of the sub-pages of root pages. -/
def savedPageIds (nodeId : String) (pages : List PageRec) : List String :=
  (pages.filter (isRootPage nodeId)).map (·.id) ++
    (pages.filter (isRootPage nodeId)).flatMap (fun r =>
      (pages.filter (fun p => p.parent_id == some r.id)).map (·.id))

/-- The orphan pass: each page whose id was not claimed goes into a
directory named after its parent page when that parent id is in the page
map, else into the document directory. -/
def orphanDir (docPath : String) (pages : List PageRec) (o : PageRec) : String :=
  match o.parent_id with
  | some pid =>
      if pid == "" then docPath
      else
        match pageMapGet pages pid with
        | some parentPage => joinPath docPath (sanitizeFileName parentPage.name)
        | none => docPath
  | none => docPath

/-- The orphan placements themselves. -/
def placementsOrphans (nodeId : String) (docPath : String)
    (pages : List PageRec) : List (PageRec × String) :=
  (pages.filter (fun p => !((savedPageIds nodeId pages).contains p.id))).map
    (fun o => (o, orphanDir docPath pages o))

/-- The combined `savePage` sequence for a document that has pages. -/
def placementsCore (nodeId : String) (docPath : String)
    (pages : List PageRec) : List (PageRec × String) :=
  placementsRoots nodeId docPath pages ++ placementsOrphans nodeId docPath pages

/-- See the module description above: `pagePlacements` dispatches on the
`node.pages && node.pages.length > 0` guard of `saveDocument`. -/
def pagePlacements (node : DocPages) (basePath : String) : List (PageRec × String) :=
  let docPath := joinPath basePath (sanitizeFileName node.name)
  match node.pages with
  | [] => []
  | _ :: _ => placementsCore node.id docPath node.pages

/-! ## Document forest (`buildDocumentTree` in `src/src/crawler.ts`) -/

/-- A `ClickUpDocument` as far as `buildDocumentTree` reads it: its id and
the id of its `parent` object when one is attached. -/
structure DocIn where
  id : String
  parentRef : Option String
deriving DecidableEq, Repr

/-- The JavaScript normalisation `doc.parent?.id || null` performed by the
first pass: a missing parent or an empty-string id both become `null`. -/
def docParentId (d : DocIn) : Option String :=
  match d.parentRef with
  | none => none
  | some p => if p == "" then none else some p

/-- The key sequence of the first-pass `nodeMap` (JavaScript `Map` iteration
order: first insertion wins the position, duplicates do not repeat). -/
def jsKeys (docs : List DocIn) : List String :=
  docs.foldl (fun ks d => if ks.contains d.id then ks else ks ++ [d.id]) []

/-- The `parentId` stored in the node for identity `x`: the normalised
parent of the *last* input document carrying that id (`Map.set` overwrites
values). -/
def lastParentId (docs : List DocIn) (x : String) : Option String :=
  match docs.reverse.find? (fun d => d.id == x) with
  | some d => docParentId d
  | none => none

/-- The resolved parent used by the second pass: `node.parentId` when the
map contains it (`nodeMap.has`), otherwise the node becomes a root. -/
def resolvedParent (docs : List DocIn) (x : String) : Option String :=
  match lastParentId docs x with
  | some p => if (jsKeys docs).contains p then some p else none
  | none => none

/-- The `rootNodes` list returned by `buildDocumentTree`, as identities in
push order (the second pass iterates the map in key order). -/
def treeRoots (docs : List DocIn) : List String :=
  (jsKeys docs).filter (fun x => (resolvedParent docs x).isNone)

/-- The `children` array of the node with identity `p` after the second
pass, as identities in push order. -/
def treeChildren (docs : List DocIn) (p : String) : List String :=
  (jsKeys docs).filter (fun c => resolvedParent docs c == some p)

/-- Depth-first traversal of the pointer structure `buildDocumentTree`
returns: every identity in `start` followed by the traversal of its
children, cut off at the given depth (the forest of an acyclic input has
depth at most the number of distinct identities, so a sufficiently large
fuel makes the cut-off unreachable). -/
def reachIds (ch : String → List String) : Nat → List String → List String
  | 0, _ => []
  | n + 1, start => start.flatMap (fun y => y :: reachIds ch n (ch y))

/-- All identities reachable in the returned forest, with fuel strictly
larger than the number of distinct identities. -/
def forestIds (docs : List DocIn) : List String :=
  reachIds (treeChildren docs) ((jsKeys docs).length + 1) (treeRoots docs)

/-- Iterated resolved-parent references: `ancStep rp d x` is the `d`-th
ancestor of `x` along parent references, or `none` when the chain ends
before `d` steps. -/
def ancStep (rp : String → Option String) : Nat → String → Option String
  | 0, x => some x
  | n + 1, x =>
      match rp x with
      | none => none
      | some p => ancStep rp n p

/-- An input is acyclic when every identity's parent chain terminates within
the number of distinct identities. -/
def AcyclicDocs (docs : List DocIn) : Prop :=
  ∀ x ∈ jsKeys docs, ancStep (resolvedParent docs) (jsKeys docs).length x = none

/-! ## Supporting lemmas for the sanitiser -/

/-- The data rows of `objectsToCSV` as cell lists, one per input record. -/
def csvRows (objs : List JVal) : List (List String) :=
  (List.range objs.length).map (csvRowCells objs)

theorem mem_collapseWhitespace_not_ws (l : List Char) :
    ∀ c ∈ collapseWhitespace l, isJsWhitespace c = false := by
  induction l with
  | nil => intro c hc; simp [collapseWhitespace] at hc
  | cons a tail ih =>
    cases tail with
    | nil =>
      intro c hc
      by_cases h : isJsWhitespace a = true
      · simp [collapseWhitespace, h] at hc
        subst hc; decide
      · simp [collapseWhitespace, h] at hc
        subst hc; simpa using h
    | cons b rest =>
      intro c hc
      by_cases ha : isJsWhitespace a = true
      · by_cases hb : isJsWhitespace b = true
        · simp only [collapseWhitespace, ha, hb, if_true] at hc
          exact ih c hc
        · simp only [collapseWhitespace, ha, hb, if_true, if_false] at hc
          rcases List.mem_cons.mp hc with h1 | h1
          · subst h1; decide
          · exact ih c h1
      · simp only [collapseWhitespace, ha, if_false] at hc
        rcases List.mem_cons.mp hc with h1 | h1
        · subst h1; simpa using ha
        · exact ih c h1

theorem mem_collapseWhitespace (l : List Char) :
    ∀ c ∈ collapseWhitespace l, c = '_' ∨ c ∈ l := by
  induction l with
  | nil => intro c hc; simp [collapseWhitespace] at hc
  | cons a tail ih =>
    cases tail with
    | nil =>
      intro c hc
      by_cases h : isJsWhitespace a = true <;>
        simp [collapseWhitespace, h] at hc <;> simp [hc]
    | cons b rest =>
      intro c hc
      by_cases ha : isJsWhitespace a = true
      · by_cases hb : isJsWhitespace b = true
        · simp only [collapseWhitespace, ha, hb, if_true] at hc
          rcases ih c hc with h1 | h1
          · exact Or.inl h1
          · exact Or.inr (List.mem_cons_of_mem _ h1)
        · simp only [collapseWhitespace, ha, hb, if_true, if_false] at hc
          rcases List.mem_cons.mp hc with h1 | h1
          · exact Or.inl h1
          · rcases ih c h1 with h2 | h2
            · exact Or.inl h2
            · exact Or.inr (List.mem_cons_of_mem _ h2)
      · simp only [collapseWhitespace, ha, if_false] at hc
        rcases List.mem_cons.mp hc with h1 | h1
        · exact Or.inr (by simp [h1])
        · rcases ih c h1 with h2 | h2
          · exact Or.inl h2
          · exact Or.inr (List.mem_cons_of_mem _ h2)

theorem mem_collapseUnderscores (l : List Char) :
    ∀ c ∈ collapseUnderscores l, c ∈ l := by
  induction l with
  | nil => intro c hc; simp [collapseUnderscores] at hc
  | cons a tail ih =>
    cases tail with
    | nil => intro c hc; simp [collapseUnderscores] at hc; simp [hc]
    | cons b rest =>
      intro c hc
      by_cases h : (a = '_' && b = '_') = true
      · simp only [collapseUnderscores, h, if_true] at hc
        exact List.mem_cons_of_mem _ (ih c hc)
      · simp only [collapseUnderscores, h, if_false] at hc
        rcases List.mem_cons.mp hc with h1 | h1
        · simp [h1]
        · exact List.mem_cons_of_mem _ (ih c h1)

theorem mem_replaceIllegal (l : List Char) :
    ∀ c ∈ replaceIllegal l, isIllegalFileChar c = false := by
  intro c hc
  rcases List.mem_map.mp hc with ⟨d, _, hd⟩
  by_cases h : isIllegalFileChar d = true
  · simp [h] at hd; subst hd; decide
  · simp [h] at hd; subst hd; simpa using h

theorem dropWhile_eq_self_of_not (p : Char → Bool) (l : List Char)
    (h : ∀ c ∈ l, p c = false) : l.dropWhile p = l := by
  cases l with
  | nil => rfl
  | cons a rest => simp [List.dropWhile_cons, h a (by simp)]

theorem trimJS_eq_self (l : List Char) (h : ∀ c ∈ l, isJsWhitespace c = false) :
    trimJS l = l := by
  unfold trimJS
  rw [dropWhile_eq_self_of_not _ _ h,
      dropWhile_eq_self_of_not _ _ (fun c hc => h c (List.mem_reverse.mp hc)),
      List.reverse_reverse]

theorem mem_trimJS (l : List Char) : ∀ c ∈ trimJS l, c ∈ l := by
  intro c hc
  unfold trimJS at hc
  have h1 := List.mem_reverse.mp hc
  have h2 := (List.dropWhile_sublist (l := (l.dropWhile isJsWhitespace).reverse)
    (p := isJsWhitespace)).subset h1
  have h3 := List.mem_reverse.mp h2
  exact (List.dropWhile_sublist (l := l) (p := isJsWhitespace)).subset h3

/-! ## Claim theorems: tabular export and sanitisation -/

/-- Claim C2 (status: code bug).  Feeding the records `x:1` and then
`x:2, y:3` through the streaming export leaves the persisted file as
`"x,y\n1\n\n2,3\n"`: the header line is `x,y` and the first data row stays
`1`, as the claim states, but the header rewrite also appends a spurious
empty line (the source computes `lines.join("\n") + "\n"` on content that
already ends in a newline), so the second row lands after a blank line —
contradicting the claim that only the header line of the already-persisted
output changes. -/
theorem c2_streaming_export_failing_input :
    (runStream [JVal.obj [("x", JVal.num 1)],
                JVal.obj [("x", JVal.num 2), ("y", JVal.num 3)]]).file
      = "x,y\n1\n\n2,3\n" ∧
    (splitOnChar '\n'
      (runStream [JVal.obj [("x", JVal.num 1)],
                  JVal.obj [("x", JVal.num 2), ("y", JVal.num 3)]]).file.data).map String.mk
      = ["x,y", "1", "", "2,3", ""] := by
  constructor <;> decide

/-- Claim C3 (confirmed).  For any record list, `objectsToCSV` produces the
newline-join of one header line and one row per record (so N records give
N + 1 joined lines), every data row is built from exactly as many cells as
the header, and an absent or null value renders as the empty-string cell. -/
theorem c3_objectsToCSV_shape (objs : List JVal) :
    objectsToCSV objs
      = strJoin "\n" (strJoin "," (csvHeaderCells objs) ::
          (csvRows objs).map (strJoin ",")) ∧
    (csvRows objs).length = objs.length ∧
    (∀ r ∈ csvRows objs, r.length = (csvHeaderCells objs).length) ∧
    escapeCSV (flattenValueOpt none) = "" ∧
    escapeCSV (flattenValueOpt (some JVal.null)) = "" := by
  refine ⟨?_, ?_, ?_, rfl, rfl⟩
  · cases objs with
    | nil => rfl
    | cons o os =>
      simp only [objectsToCSV, csvRows, List.map_map]
      rfl
  · simp [csvRows]
  · intro r hr
    simp only [csvRows, List.mem_map] at hr
    rcases hr with ⟨i, _, hi⟩
    subst hi
    simp [csvRowCells, csvHeaderCells]

/-- Claim C6 (confirmed).  For the single document `doc` with pages `p1`
(no parent), `p2` (parent `p1`) and `p3` (parent `p2`), `saveDocument`
saves `p1` as a root page in the document directory, `p2` as its sub-page
in the directory named after `p1`, and `p3` as an orphan re-attached into a
directory named after `p2` (because `p2` is in the same page collection)
rather than into the document directory as a root page. -/
theorem c6_two_level_page_hierarchy :
    pagePlacements ⟨"doc", "doc",
        [⟨"p1", "p1", none⟩, ⟨"p2", "p2", some "p1"⟩, ⟨"p3", "p3", some "p2"⟩]⟩ "out"
      = [(⟨"p1", "p1", none⟩, "out/doc"),
         (⟨"p2", "p2", some "p1"⟩, "out/doc/p1"),
         (⟨"p3", "p3", some "p2"⟩, "out/doc/p2")] ∧
    "out/doc/p2" ≠ "out/doc" := by
  constructor <;> decide

/-- Claim C9 counterexample.  A name with leading and trailing whitespace is
*not* returned with that whitespace removed: the whitespace is encoded as
underscores first (`" a "` becomes `"_a_"`, not `"a"`), because the
whitespace replacement runs before `trim()`. -/
theorem c9_sanitize_trim_counterexample :
    sanitizeFileName " a " = "_a_" ∧ sanitizeFileName " a " ≠ "a" := by
  constructor <;> decide

/-- Claim C9 as amended (corrected).  `sanitizeFileName` replaces illegal
path characters, collapses each whitespace run to a single underscore and
collapses underscore runs; the final `trim()` is a no-op because no
whitespace survives the earlier replacement — so leading and trailing
whitespace is encoded as `_`, never removed, and the result carries no
whitespace at all. -/
theorem c9_sanitize_amended (s : String) :
    sanitizeFileName s
      = String.mk (collapseUnderscores (collapseWhitespace (replaceIllegal s.data))) ∧
    (∀ c ∈ (sanitizeFileName s).data, isJsWhitespace c = false) := by
  have hmem : ∀ c ∈ collapseUnderscores (collapseWhitespace (replaceIllegal s.data)),
      isJsWhitespace c = false := by
    intro c hc
    exact mem_collapseWhitespace_not_ws _ c (mem_collapseUnderscores _ c hc)
  have htrim := trimJS_eq_self _ hmem
  constructor
  · simp only [sanitizeFileName, htrim]
  · intro c hc
    simp only [sanitizeFileName, htrim] at hc
    exact hmem c hc

/-- Witness for the amended claim C9 at the concrete input `" a "`. -/
theorem c9_sanitize_amended_witness :
    sanitizeFileName " a "
      = String.mk (collapseUnderscores (collapseWhitespace (replaceIllegal " a ".data))) ∧
    ('_' ∈ (sanitizeFileName " a ").data ∧ isJsWhitespace '_' = false) :=
  ⟨(c9_sanitize_amended " a ").1,
   by decide, (c9_sanitize_amended " a ").2 '_' (by decide)⟩

/-- Claim C10 (confirmed).  For every input string, the sanitised name
contains none of the characters `< > : " / \ | ? *` — in particular no path
separator ever survives into a constructed output path. -/
theorem c10_sanitize_no_illegal_chars (s : String) :
    ∀ c ∈ (sanitizeFileName s).data, isIllegalFileChar c = false := by
  intro c hc
  simp only [sanitizeFileName] at hc
  have h1 := mem_trimJS _ c hc
  have h2 := mem_collapseUnderscores _ c h1
  rcases mem_collapseWhitespace _ c h2 with h3 | h3
  · subst h3; decide
  · exact mem_replaceIllegal _ c h3

/-- Witness for claim C10 at the concrete input `"a/b"`. -/
theorem c10_sanitize_no_illegal_chars_witness :
    'a' ∈ (sanitizeFileName "a/b").data ∧ isIllegalFileChar 'a' = false :=
  ⟨by decide, c10_sanitize_no_illegal_chars "a/b" 'a' (by decide)⟩

/-! ## Counting lemmas for the placement invariant -/

theorem countP_flatMap {α β : Type} (f : α → List β) (pr : β → Bool) (l : List α) :
    (l.flatMap f).countP pr = (l.map (fun a => (f a).countP pr)).sum := by
  induction l with
  | nil => rfl
  | cons a rest ih => simp [List.flatMap_cons, List.countP_append, ih]

theorem sum_map_add {α : Type} (g h : α → Nat) (l : List α) :
    (l.map (fun a => g a + h a)).sum = (l.map g).sum + (l.map h).sum := by
  induction l with
  | nil => rfl
  | cons a rest ih => simp only [List.map_cons, List.sum_cons, ih]; omega

theorem sum_indicator_eq_countP {α : Type} (cond : α → Bool) (l : List α) :
    (l.map (fun a => if cond a then 1 else 0)).sum = l.countP cond := by
  induction l with
  | nil => rfl
  | cons a rest ih =>
    by_cases h : cond a = true
    · simp only [List.map_cons, List.sum_cons, List.countP_cons, h, ih]
      simp
      omega
    · simp only [List.map_cons, List.sum_cons, List.countP_cons, h, ih]
      simp [h]

theorem beq_str_comm (a b : String) : (a == b) = (b == a) := by
  by_cases h : a = b
  · simp [h]
  · simp [h, Ne.symm h]

theorem countP_key_unique {α : Type} (f : α → String) (g : α → Bool) (l : List α)
    (hn : (l.map f).Nodup) {a : α} (ha : a ∈ l) :
    l.countP (fun x => (f x == f a) && g x) = if g a then 1 else 0 := by
  induction l with
  | nil => simp at ha
  | cons b rest ih =>
    simp only [List.map_cons, List.nodup_cons] at hn
    rw [List.countP_cons]
    rcases List.mem_cons.mp ha with hab | hmem
    · subst hab
      have hz : rest.countP (fun x => (f x == f a) && g x) = 0 := by
        apply List.countP_eq_zero.mpr
        intro x hx hpx
        have hfx : f x = f a := by
          have := (Bool.and_eq_true _ _).mp hpx
          exact beq_iff_eq.mp this.1
        exact hn.1 (hfx ▸ List.mem_map_of_mem f hx)
      rw [hz]
      by_cases hg : g a = true <;> simp [hg]
    · have hfa : f a ∈ rest.map f := List.mem_map_of_mem f hmem
      have hne : f b ≠ f a := fun he => hn.1 (he ▸ hfa)
      have hb : ((f b == f a) && g b) = false := by simp [hne]
      rw [hb, ih hn.2 hmem]
      simp

theorem countP_key_absent {α : Type} (f : α → String) (g : α → Bool) (l : List α)
    (s : String) (hs : s ∉ l.map f) :
    l.countP (fun x => (f x == s) && g x) = 0 := by
  apply List.countP_eq_zero.mpr
  intro x hx hpx
  have hfx : f x = s := beq_iff_eq.mp ((Bool.and_eq_true _ _).mp hpx).1
  exact hs (hfx ▸ List.mem_map_of_mem f hx)

theorem contains_eq_true_iff (l : List String) (a : String) :
    l.contains a = true ↔ a ∈ l := by
  simp [List.contains_eq_any_beq]

theorem placementsCore_count_eq_one (nid dp : String) (pages : List PageRec)
    (hnodup : (pages.map (fun p => p.id)).Nodup)
    (hnid : ∀ p ∈ pages, p.id ≠ nid)
    (hne : ∀ p ∈ pages, p.id ≠ "")
    {p : PageRec} (hp : p ∈ pages) :
    (placementsCore nid dp pages).countP (fun q => q.1.id == p.id) = 1 := by
  unfold placementsCore
  rw [List.countP_append]
  have hpart1 : (placementsRoots nid dp pages).countP (fun q => q.1.id == p.id)
      = (pages.filter (isRootPage nid)).countP (fun r => p.parent_id == some r.id)
        + (pages.filter (isRootPage nid)).countP (fun r => r.id == p.id) := by
    unfold placementsRoots
    rw [countP_flatMap]
    have hmapeq : (pages.filter (isRootPage nid)).map
        (fun r => (((r, dp) ::
          (pages.filter (fun q => q.parent_id == some r.id)).map
            (fun q => (q, joinPath dp (sanitizeFileName r.name)))).countP
              (fun q => q.1.id == p.id)))
        = (pages.filter (isRootPage nid)).map
            (fun r => (if p.parent_id == some r.id then 1 else 0)
              + (if r.id == p.id then 1 else 0)) := by
      apply List.map_congr_left
      intro r _
      rw [List.countP_cons, List.countP_map, List.countP_filter]
      have hcu := countP_key_unique (fun q => q.id)
        (fun q => q.parent_id == some r.id) pages hnodup hp
      simp only [Function.comp] at *
      rw [hcu]
    rw [hmapeq, sum_map_add, sum_indicator_eq_countP, sum_indicator_eq_countP]
  have hpart2 : (placementsOrphans nid dp pages).countP (fun q => q.1.id == p.id)
      = if !((savedPageIds nid pages).contains p.id) then 1 else 0 := by
    unfold placementsOrphans
    rw [List.countP_map, List.countP_filter]
    have hcu := countP_key_unique (fun q => q.id)
      (fun q => !((savedPageIds nid pages).contains q.id)) pages hnodup hp
    simp only [Function.comp] at *
    rw [hcu]
  rw [hpart1, hpart2]
  have hA : (pages.filter (isRootPage nid)).countP (fun r => r.id == p.id)
      = if isRootPage nid p then 1 else 0 := by
    rw [List.countP_filter]
    exact countP_key_unique (fun q => q.id) (isRootPage nid) pages hnodup hp
  have hB : (pages.filter (isRootPage nid)).countP (fun r => p.parent_id == some r.id)
      = pages.countP (fun q => (p.parent_id == some q.id) && isRootPage nid q) := by
    rw [List.countP_filter]
  by_cases hroot : isRootPage nid p = true
  · -- p is classified as a root page: it is saved once there and nowhere else
    have hBz : pages.countP (fun q => (p.parent_id == some q.id) && isRootPage nid q) = 0 := by
      apply List.countP_eq_zero.mpr
      intro q hq hpq
      have h1 := (Bool.and_eq_true _ _).mp hpq
      have hpar : p.parent_id = some q.id := beq_iff_eq.mp h1.1
      unfold isRootPage at hroot
      rw [hpar] at hroot
      rcases Bool.or_eq_true_iff.mp hroot with h2 | h2
      · exact hne q hq (beq_iff_eq.mp h2)
      · exact hnid q hq (beq_iff_eq.mp h2)
    have hsaved : (savedPageIds nid pages).contains p.id = true := by
      rw [contains_eq_true_iff]
      unfold savedPageIds
      apply List.mem_append_left
      exact List.mem_map_of_mem _ (List.mem_filter.mpr ⟨hp, hroot⟩)
    rw [hA, hB, hBz, hroot, hsaved]
    simp
  · -- p is not a root page: its parent reference is a real foreign id
    have hrootF : isRootPage nid p = false := Bool.eq_false_iff.mpr hroot
    obtain ⟨s, hs⟩ : ∃ s, p.parent_id = some s := by
      cases hps : p.parent_id with
      | none => exact absurd (by simp [isRootPage, hps]) hroot
      | some s => exact ⟨s, rfl⟩
    have hcond : (s == "" || s == nid) = false := by
      have h2 := hrootF
      simp only [isRootPage, hs] at h2
      exact h2
    have hs1 : ¬(s = "") := fun h => by simp [h] at hcond
    have hs2 : ¬(s = nid) := fun h => by simp [h] at hcond
    by_cases hex : pages.any (fun r => isRootPage nid r && r.id == s) = true
    · -- the referenced parent is itself a root page: p is saved as its sub-page
      obtain ⟨r, hr, hrprop⟩ := List.any_eq_true.mp hex
      have hrroot : isRootPage nid r = true := ((Bool.and_eq_true _ _).mp hrprop).1
      have hrid : r.id = s := beq_iff_eq.mp ((Bool.and_eq_true _ _).mp hrprop).2
      have hB1 : pages.countP (fun q => (p.parent_id == some q.id) && isRootPage nid q)
          = 1 := by
        have hcg : pages.countP (fun q => (p.parent_id == some q.id) && isRootPage nid q)
            = pages.countP (fun q => (q.id == r.id) && isRootPage nid q) := by
          apply List.countP_congr
          intro q _
          rw [hs, hrid]
          constructor
          · intro h1
            have h2 := (Bool.and_eq_true _ _).mp h1
            have : s = q.id := by
              have := beq_iff_eq.mp h2.1
              exact Option.some.inj this
            simp [this, h2.2]
          · intro h1
            have h2 := (Bool.and_eq_true _ _).mp h1
            have : q.id = s := beq_iff_eq.mp h2.1
            simp [this, h2.2]
        rw [hcg, countP_key_unique (fun q => q.id) (isRootPage nid) pages hnodup hr, hrroot]
        simp
      have hsaved : (savedPageIds nid pages).contains p.id = true := by
        rw [contains_eq_true_iff]
        unfold savedPageIds
        apply List.mem_append_right
        apply List.mem_flatMap.mpr
        refine ⟨r, List.mem_filter.mpr ⟨hr, hrroot⟩, ?_⟩
        apply List.mem_map_of_mem
        apply List.mem_filter.mpr
        refine ⟨hp, ?_⟩
        rw [hs, hrid]
        exact beq_iff_eq.mpr rfl
      rw [hA, hB, hB1, hrootF, hsaved]
      simp
    · -- no root page carries the referenced id: p is saved once as an orphan
      have hnex : ∀ r ∈ pages, (isRootPage nid r && r.id == s) = false := by
        intro r hr
        cases h : (isRootPage nid r && r.id == s) with
        | false => rfl
        | true => exact absurd (List.any_eq_true.mpr ⟨r, hr, h⟩) hex
      have hBz : pages.countP (fun q => (p.parent_id == some q.id) && isRootPage nid q)
          = 0 := by
        apply List.countP_eq_zero.mpr
        intro q hq hpq
        have h1 := (Bool.and_eq_true _ _).mp hpq
        have hqs : q.id = s := by
          have := beq_iff_eq.mp h1.1
          rw [hs] at this
          exact (Option.some.inj this).symm
        have := hnex q hq
        rw [h1.2, hqs] at this
        simp at this
      have hnotmem : p.id ∉ savedPageIds nid pages := by
        intro hmem
        unfold savedPageIds at hmem
        rcases List.mem_append.mp hmem with hleft | hright
        · obtain ⟨r, hrfil, hrid⟩ := List.mem_map.mp hleft
          have hrmem := (List.mem_filter.mp hrfil).1
          have hrroot := (List.mem_filter.mp hrfil).2
          have : r = p := List.inj_on_of_nodup_map hnodup hrmem hp hrid
          rw [this] at hrroot
          exact hroot hrroot
        · obtain ⟨r, hrfil, hmem2⟩ := List.mem_flatMap.mp hright
          have hrmem := (List.mem_filter.mp hrfil).1
          have hrroot := (List.mem_filter.mp hrfil).2
          obtain ⟨q, hqfil, hqid⟩ := List.mem_map.mp hmem2
          have hqmem := (List.mem_filter.mp hqfil).1
          have hqpar := (List.mem_filter.mp hqfil).2
          have hqp : q = p := List.inj_on_of_nodup_map hnodup hqmem hp hqid
          rw [hqp] at hqpar
          have hsr : s = r.id := by
            have := beq_iff_eq.mp hqpar
            rw [hs] at this
            exact Option.some.inj this
          have := hnex r hrmem
          rw [hrroot, ← hsr] at this
          simp at this
      have hsavedF : (savedPageIds nid pages).contains p.id = false := by
        cases h : (savedPageIds nid pages).contains p.id with
        | false => rfl
        | true => exact absurd (contains_eq_true_iff _ _ |>.mp h) hnotmem
      rw [hA, hB, hBz, hrootF, hsavedF]
      simp

/-- Claim C5 counterexample.  A page whose id equals the owning document's
id makes another page satisfy both the root-page test (its parent reference
equals the document id) and the sub-page test (its parent reference equals
that root page's id), so it is written to two output locations — the
claimed-identity set is only consulted for orphans and does not prevent
this. -/
theorem c5_page_placement_counterexample :
    (pagePlacements ⟨"doc", "doc", [⟨"doc", "r", none⟩, ⟨"p", "p", some "doc"⟩]⟩ "out").countP
      (fun q => q.1.id == "p") = 2 := by
  decide

/-- Claim C5 as amended (corrected).  Provided the pages of a document carry
pairwise distinct, non-empty ids, none of which equals the document's own
id, every page in the collection is written to exactly one output location
(root slot, sub-page slot or orphan slot): root-page and sub-page identities
are claimed before orphan resolution, so an orphan never lands in an
already-claimed identity's slot. -/
theorem c5_page_placement_amended (node : DocPages) (basePath : String)
    (hnodup : (node.pages.map (fun p => p.id)).Nodup)
    (hnid : ∀ p ∈ node.pages, p.id ≠ node.id)
    (hne : ∀ p ∈ node.pages, p.id ≠ "") :
    ∀ p ∈ node.pages,
      (pagePlacements node basePath).countP (fun q => q.1.id == p.id) = 1 := by
  intro p hp
  obtain ⟨nid, nname, pages⟩ := node
  simp only at hp hnid hne hnodup
  cases pages with
  | nil => simp at hp
  | cons a tl =>
    have hred : pagePlacements ⟨nid, nname, a :: tl⟩ basePath
        = placementsCore nid (joinPath basePath (sanitizeFileName nname)) (a :: tl) := rfl
    rw [hred]
    exact placementsCore_count_eq_one _ _ _ hnodup hnid hne hp

/-- Witness for the amended claim C5 at the two-level example document. -/
theorem c5_page_placement_amended_witness :
    (pagePlacements ⟨"doc", "doc",
        [⟨"p1", "p1", none⟩, ⟨"p2", "p2", some "p1"⟩, ⟨"p3", "p3", some "p2"⟩]⟩ "out").countP
      (fun q => q.1.id == (⟨"p1", "p1", (none : Option String)⟩ : PageRec).id) = 1 :=
  c5_page_placement_amended
    ⟨"doc", "doc", [⟨"p1", "p1", none⟩, ⟨"p2", "p2", some "p1"⟩, ⟨"p3", "p3", some "p2"⟩]⟩
    "out" (by decide) (by decide) (by decide) ⟨"p1", "p1", none⟩ (by decide)

/-! ## Task-walk orchestration (`getAllTasksInSpace` in `src/src/clickup-client.ts`) -/

/-- A failure raised by the HTTP `request` helper: it carries an
`isRateLimit` flag (`response.status === 429`). -/
structure ApiErr where
  isRateLimit : Bool
deriving DecidableEq, Repr

/-- A task record as the walk inspects it: its id, the truthiness of the
three considered-complete fields (`subtasks`, `description`,
`markdown_description`) and an opaque payload distinguishing records. -/
structure TaskRec where
  id : String
  hasSubtasks : Bool
  hasDescription : Bool
  hasMarkdownDescription : Bool
  payload : Nat
deriving DecidableEq, Repr

/-- The response of a detail fetch (`getTask`): `taskField` models the
`.task` member when the response is wrapped (and that member is a truthy
object), `selfRec` models reading the response itself as the task record
(the unwrapped shape). -/
structure DetailResp where
  taskField : Option TaskRec
  selfRec : TaskRec
deriving DecidableEq, Repr

/-- A task list as the walk reads it (id and name). -/
structure ListRec where
  id : String
  name : String
deriving DecidableEq, Repr

/-- A folder as the walk reads it (id and name). -/
structure FolderRec where
  id : String
  name : String
deriving DecidableEq, Repr

/-- The remote service's behaviour during one walk: what each underlying
HTTP `request` returns or raises, per endpoint.  A rate-limited fetch is an
`Except.error` whose `isRateLimit` is true. -/
structure SpaceEnv where
  listsInSpace : Except ApiErr (List ListRec)
  rawTasks : String → Except ApiErr (List TaskRec)
  rawTaskDetail : String → Except ApiErr DetailResp
  folders : Except ApiErr (List FolderRec)
  listsOfFolder : String → Except ApiErr (List ListRec)

/-- The observable side effects of the walk: the records handed to the
per-task callback, in order, and the number of detail fetches issued. -/
structure CrawlLog where
  delivered : List TaskRec
  detailCalls : Nat
deriving DecidableEq, Repr

/-- The walk's effect monad: JavaScript exceptions (`Except`), over the
side-effect log, which survives a thrown exception the way real side
effects do. -/
abbrev CrawlM := ExceptT ApiErr (StateM CrawlLog)

/-- Perform one underlying HTTP request with the environment-given result. -/
def fetchE {α : Type} (x : Except ApiErr α) : CrawlM α :=
  match x with
  | .ok a => pure a
  | .error e => throw e

/-- Hand one record to the per-task callback (`await onTask(finalTask)`). -/
def deliverTask (t : TaskRec) : CrawlM Unit :=
  modify (fun s => { s with delivered := s.delivered ++ [t] })

/-- `getTasks`: the bulk list fetch; its `catch` swallows every failure and
returns `{ tasks: [] }`. -/
def getTasksM (env : SpaceEnv) (listId : String) : CrawlM (List TaskRec) :=
  tryCatch (fetchE (env.rawTasks listId)) (fun _ => pure [])

/-- `getTask`: the detail fetch; one request is issued (counted), and its
`catch` swallows every failure and returns `null` (`none`). -/
def getTaskM (env : SpaceEnv) (taskId : String) : CrawlM (Option DetailResp) := do
  modify (fun s => { s with detailCalls := s.detailCalls + 1 })
  tryCatch (do
    let r ← fetchE (env.rawTaskDetail taskId)
    pure (some r))
    (fun _ => pure none)

/-- `!task.subtasks || !task.description || !task.markdown_description`. -/
def needsFullFetch (t : TaskRec) : Bool :=
  !t.hasSubtasks || !t.hasDescription || !t.hasMarkdownDescription

/-- `fullTaskResponse?.task || fullTaskResponse || task` when the response
is a truthy object: the wrapped task member if present, else the response
itself. -/
def finalFrom (r : DetailResp) (_t : TaskRec) : TaskRec :=
  match r.taskField with
  | some u => u
  | none => r.selfRec

/-- The per-task body of the walk loops: compute `finalTask`, issuing one
detail fetch when a considered-complete field is missing, falling back to
the bulk record when the detail fetch returns `null`; the surrounding
`try`/`catch` of the source is modelled even though `getTask` never
throws. -/
def processTaskM (env : SpaceEnv) (t : TaskRec) : CrawlM TaskRec :=
  if needsFullFetch t then
    tryCatch (do
      let r? ← getTaskM env t.id
      match r? with
      | some r => pure (finalFrom r t)
      | none => pure t)
      (fun _ => pure t)
  else pure t

/-- One iteration of the task loop: compute the final record and hand it to
the callback (`finalTask` is a truthy object whenever the loop reaches the
callback call, so the `if (onTask && finalTask)` guard always passes). -/
def taskStep (env : SpaceEnv) (t : TaskRec) : CrawlM Unit := do
  let final ← processTaskM env t
  deliverTask final

/-- A sequential `for ... of` loop over a list of items, one monadic body
per item (the loops of `getAllTasksInSpace` are strictly sequential). -/
def forEachM {β : Type} (act : β → CrawlM Unit) : List β → CrawlM Unit
  | [] => pure ()
  | b :: rest => do
      act b
      forEachM act rest

/-- One iteration of a list loop, with its per-list `try`/`catch`. -/
def listStep (env : SpaceEnv) (listId : String) : CrawlM Unit :=
  tryCatch (do
    let tasks ← getTasksM env listId
    forEachM (taskStep env) tasks)
    (fun _ => pure ())

/-- One iteration of the folder loop: fetch the folder's lists and walk
each, with the per-folder `try`/`catch`. -/
def folderStep (env : SpaceEnv) (f : FolderRec) : CrawlM Unit :=
  tryCatch (do
    let ls ← fetchE (env.listsOfFolder f.id)
    forEachM (fun l => listStep env l.id) ls)
    (fun _ => pure ())

/-- `getAllTasksInSpace`: space lists first, then lists inside folders,
with the source's nesting of `try`/`catch` blocks (outermost catch around
everything, a catch around the folder section, a catch per folder). -/
def getAllTasksInSpaceM (env : SpaceEnv) : CrawlM Unit :=
  tryCatch (do
    let spaceLists ← fetchE env.listsInSpace
    forEachM (fun l => listStep env l.id) spaceLists
    tryCatch (do
      let fs ← fetchE env.folders
      forEachM (folderStep env) fs)
      (fun _ => pure ()))
    (fun _ => pure ())

/-- Run the public entry point from an empty log: the `Except` outcome of
the returned promise and the final side-effect log. -/
def runWalk (env : SpaceEnv) : Except ApiErr Unit × CrawlLog :=
  ((getAllTasksInSpaceM env).run).run ⟨[], 0⟩

/-- The number of records the per-task callback received during the walk. -/
def deliveredCount (env : SpaceEnv) : Nat :=
  (runWalk env).2.delivered.length

/-- The final record the per-task body settles on, as a pure function. -/
def finalTaskFor (env : SpaceEnv) (t : TaskRec) : TaskRec :=
  if needsFullFetch t then
    match env.rawTaskDetail t.id with
    | .ok r => finalFrom r t
    | .error _ => t
  else t

/-- The number of detail fetches the per-task body issues. -/
def detailCallsFor (t : TaskRec) : Nat :=
  if needsFullFetch t then 1 else 0

/-- The bulk task list the walk iterates for one list id. -/
def tasksOfR (env : SpaceEnv) (listId : String) : List TaskRec :=
  match env.rawTasks listId with
  | .ok ts => ts
  | .error _ => []

/-! ## Unfolding lemmas for the walk's effect monad -/

theorem tryCatchE_run {α : Type} (m : CrawlM α) (h : ApiErr → CrawlM α) (s : CrawlLog) :
    ((tryCatch m h).run).run s
      = (match (m.run).run s with
         | (Except.ok a, s2) => (Except.ok a, s2)
         | (Except.error e, s2) => ((h e).run).run s2) := by
  show ((ExceptT.tryCatch m h).run).run s = _
  simp only [ExceptT.tryCatch, ExceptT.run, ExceptT.mk, Bind.bind, StateT.bind, StateT.run]
  rcases hms : m s with ⟨r, s2⟩
  cases r with
  | ok a => rfl
  | error e => rfl

theorem bindE_run {α β : Type} (m : CrawlM α) (f : α → CrawlM β) (s : CrawlLog) :
    (((m >>= f).run).run s)
      = (match (m.run).run s with
         | (Except.ok a, s2) => ((f a).run).run s2
         | (Except.error e, s2) => (Except.error e, s2)) := by
  show (((ExceptT.bind m f).run).run s) = _
  simp only [ExceptT.bind, ExceptT.run, ExceptT.mk, ExceptT.bindCont, Bind.bind, StateT.bind,
    StateT.run]
  rcases hms : m s with ⟨r, s2⟩
  cases r with
  | ok a => rfl
  | error e => rfl

theorem fetchE_run {α : Type} (x : Except ApiErr α) (s : CrawlLog) :
    ((fetchE x).run).run s
      = (match x with
         | .ok a => (Except.ok a, s)
         | .error e => (Except.error e, s)) := by
  cases x with
  | ok a => rfl
  | error e => rfl

theorem getTasksM_run (env : SpaceEnv) (lid : String) (s : CrawlLog) :
    ((getTasksM env lid).run).run s = (Except.ok (tasksOfR env lid), s) := by
  unfold getTasksM tasksOfR
  rw [tryCatchE_run, fetchE_run]
  cases hx : env.rawTasks lid with
  | ok ts => rfl
  | error e => rfl

theorem getTaskM_run (env : SpaceEnv) (tid : String) (s : CrawlLog) :
    ((getTaskM env tid).run).run s
      = (Except.ok (match env.rawTaskDetail tid with
                    | .ok r => some r
                    | .error _ => none),
         { s with detailCalls := s.detailCalls + 1 }) := by
  unfold getTaskM
  rw [bindE_run]
  have hmod : (((modify (fun s => { s with detailCalls := s.detailCalls + 1 }) : CrawlM Unit)).run).run s
      = (Except.ok (), { s with detailCalls := s.detailCalls + 1 }) := rfl
  rw [hmod]
  dsimp only
  rw [tryCatchE_run, bindE_run, fetchE_run]
  cases hx : env.rawTaskDetail tid with
  | ok r => rfl
  | error e => rfl

theorem processTaskM_run (env : SpaceEnv) (t : TaskRec) (s : CrawlLog) :
    ((processTaskM env t).run).run s
      = (Except.ok (finalTaskFor env t),
         { s with detailCalls := s.detailCalls + detailCallsFor t }) := by
  unfold processTaskM finalTaskFor detailCallsFor
  cases hq : needsFullFetch t with
  | false => rfl
  | true =>
    simp only [if_true]
    rw [tryCatchE_run, bindE_run, getTaskM_run]
    dsimp only
    cases hx : env.rawTaskDetail t.id with
    | ok r => rfl
    | error e => rfl

theorem taskStep_run (env : SpaceEnv) (t : TaskRec) (s : CrawlLog) :
    ((taskStep env t).run).run s
      = (Except.ok (), ⟨s.delivered ++ [finalTaskFor env t],
                        s.detailCalls + detailCallsFor t⟩) := by
  unfold taskStep deliverTask
  rw [bindE_run, processTaskM_run]
  rfl

theorem forEachM_ok_run {β : Type} (act : β → CrawlM Unit) (g : β → List TaskRec) (dc : β → Nat)
    (hact : ∀ b s, ((act b).run).run s
      = (Except.ok (), ⟨s.delivered ++ g b, s.detailCalls + dc b⟩)) :
    ∀ (l : List β) (s : CrawlLog), ((forEachM act l).run).run s
      = (Except.ok (), ⟨s.delivered ++ l.flatMap g,
                        s.detailCalls + (l.map dc).sum⟩) := by
  intro l
  induction l with
  | nil =>
    intro s
    simp only [forEachM, List.flatMap_nil, List.map_nil, List.sum_nil,
      List.append_nil, Nat.add_zero]
    rfl
  | cons b rest ih =>
    intro s
    show (((act b >>= fun _ => forEachM act rest).run).run s) = _
    rw [bindE_run, hact]
    dsimp only
    rw [ih]
    simp [List.flatMap_cons, List.append_assoc, Nat.add_assoc]

theorem flatMap_singleton_eq_map {β γ : Type} (f : β → γ) (l : List β) :
    l.flatMap (fun b => [f b]) = l.map f := by
  induction l with
  | nil => rfl
  | cons b rest ih => simp [List.flatMap_cons, ih]

theorem listStep_run (env : SpaceEnv) (lid : String) (s : CrawlLog) :
    ((listStep env lid).run).run s
      = (Except.ok (), ⟨s.delivered ++ (tasksOfR env lid).map (finalTaskFor env),
                        s.detailCalls + ((tasksOfR env lid).map detailCallsFor).sum⟩) := by
  unfold listStep
  rw [tryCatchE_run, bindE_run, getTasksM_run]
  dsimp only
  rw [forEachM_ok_run (taskStep env) (fun t => [finalTaskFor env t]) detailCallsFor
      (fun b s2 => taskStep_run env b s2),
    flatMap_singleton_eq_map]

/-- The records a single folder contributes to the walk. -/
def folderTasks (env : SpaceEnv) (f : FolderRec) : List TaskRec :=
  match env.listsOfFolder f.id with
  | .error _ => []
  | .ok ls => ls.flatMap (fun l => (tasksOfR env l.id).map (finalTaskFor env))

/-- The detail fetches a single folder contributes to the walk. -/
def folderCalls (env : SpaceEnv) (f : FolderRec) : Nat :=
  match env.listsOfFolder f.id with
  | .error _ => 0
  | .ok ls => (ls.map (fun l => ((tasksOfR env l.id).map detailCallsFor).sum)).sum

theorem folderStep_run (env : SpaceEnv) (f : FolderRec) (s : CrawlLog) :
    ((folderStep env f).run).run s
      = (Except.ok (), ⟨s.delivered ++ folderTasks env f,
                        s.detailCalls + folderCalls env f⟩) := by
  unfold folderStep folderTasks folderCalls
  rw [tryCatchE_run, bindE_run, fetchE_run]
  cases hx : env.listsOfFolder f.id with
  | error e =>
    dsimp only
    simp only [List.append_nil, Nat.add_zero]
    rfl
  | ok ls =>
    dsimp only
    have h := forEachM_ok_run (fun l => listStep env l.id)
      (fun l => (tasksOfR env l.id).map (finalTaskFor env))
      (fun l => ((tasksOfR env l.id).map detailCallsFor).sum)
      (fun b s2 => listStep_run env b.id s2) ls s
    rw [h]

/-- The full record sequence the walk hands to the callback. -/
def walkDeliveredSpec (env : SpaceEnv) : List TaskRec :=
  match env.listsInSpace with
  | .error _ => []
  | .ok ls =>
      ls.flatMap (fun l => (tasksOfR env l.id).map (finalTaskFor env)) ++
        (match env.folders with
         | .error _ => []
         | .ok fs => fs.flatMap (folderTasks env))

/-- The total number of detail fetches the walk issues. -/
def walkCallsSpec (env : SpaceEnv) : Nat :=
  match env.listsInSpace with
  | .error _ => 0
  | .ok ls =>
      (ls.map (fun l => ((tasksOfR env l.id).map detailCallsFor).sum)).sum +
        (match env.folders with
         | .error _ => 0
         | .ok fs => (fs.map (folderCalls env)).sum)

theorem runWalk_eq (env : SpaceEnv) :
    runWalk env = (Except.ok (), ⟨walkDeliveredSpec env, walkCallsSpec env⟩) := by
  unfold runWalk getAllTasksInSpaceM walkDeliveredSpec walkCallsSpec
  rw [tryCatchE_run, bindE_run, fetchE_run]
  cases hls : env.listsInSpace with
  | error e =>
    dsimp only
    rfl
  | ok ls =>
    dsimp only
    rw [bindE_run]
    have h1 := forEachM_ok_run (fun l => listStep env l.id)
      (fun l => (tasksOfR env l.id).map (finalTaskFor env))
      (fun l => ((tasksOfR env l.id).map detailCallsFor).sum)
      (fun b s2 => listStep_run env b.id s2) ls (⟨[], 0⟩ : CrawlLog)
    rw [h1]
    dsimp only
    rw [tryCatchE_run, bindE_run, fetchE_run]
    cases hfs : env.folders with
    | error e =>
      dsimp only
      simp only [List.nil_append, Nat.zero_add, List.append_nil, Nat.add_zero]
      rfl
    | ok fs =>
      dsimp only
      have h2 := forEachM_ok_run (folderStep env) (folderTasks env) (folderCalls env)
        (fun b s2 => folderStep_run env b s2) fs
        (⟨[] ++ ls.flatMap (fun l => (tasksOfR env l.id).map (finalTaskFor env)),
          0 + (ls.map (fun l => ((tasksOfR env l.id).map detailCallsFor).sum)).sum⟩ : CrawlLog)
      rw [h2]
      dsimp only
      simp only [List.nil_append, Nat.zero_add]

/-- The number of records the walk delivers, independent of detail-fetch
behaviour: one per task of every bulk list fetch that succeeds. -/
def walkCountSpec (env : SpaceEnv) : Nat :=
  match env.listsInSpace with
  | .error _ => 0
  | .ok ls =>
      (ls.map (fun l => (tasksOfR env l.id).length)).sum +
        (match env.folders with
         | .error _ => 0
         | .ok fs => (fs.map (fun f =>
             match env.listsOfFolder f.id with
             | .error _ => 0
             | .ok ls2 => (ls2.map (fun l => (tasksOfR env l.id).length)).sum)).sum)

theorem length_folderTasks (env : SpaceEnv) (f : FolderRec) :
    (folderTasks env f).length
      = (match env.listsOfFolder f.id with
         | .error _ => 0
         | .ok ls2 => (ls2.map (fun l => (tasksOfR env l.id).length)).sum) := by
  unfold folderTasks
  cases hx : env.listsOfFolder f.id with
  | error e => rfl
  | ok ls2 =>
    rw [List.length_flatMap]
    congr 1
    apply List.map_congr_left
    intro l _
    simp [Function.comp, List.length_map]

theorem length_walkDeliveredSpec (env : SpaceEnv) :
    (walkDeliveredSpec env).length = walkCountSpec env := by
  unfold walkDeliveredSpec walkCountSpec
  cases hls : env.listsInSpace with
  | error e => rfl
  | ok ls =>
    rw [List.length_append, List.length_flatMap]
    congr 1
    · congr 1
      apply List.map_congr_left
      intro l _
      simp [Function.comp, List.length_map]
    · cases hfs : env.folders with
      | error e => rfl
      | ok fs =>
        rw [List.length_flatMap]
        congr 1
        apply List.map_congr_left
        intro f _
        exact length_folderTasks env f

/-- A walk environment with one space list of one complete task and no
folders: the unimpeded baseline. -/
def envNoLimit : SpaceEnv :=
  ⟨.ok [⟨"l1", "l1"⟩],
   fun _ => .ok [⟨"t1", true, true, true, 0⟩],
   fun _ => .ok ⟨none, ⟨"t1", true, true, true, 0⟩⟩,
   .ok [],
   fun _ => .ok []⟩

/-- The identical walk with a 429 rate-limit signal injected into the bulk
task fetch of list `l1`. -/
def envRateLimited : SpaceEnv :=
  ⟨.ok [⟨"l1", "l1"⟩],
   fun _ => .error ⟨true⟩,
   fun _ => .ok ⟨none, ⟨"t1", true, true, true, 0⟩⟩,
   .ok [],
   fun _ => .ok []⟩

/-- Claim C4 counterexample.  A rate-limit failure raised by the *bulk* task
fetch of a list does not propagate (the walk still completes normally), but
that list's tasks are silently dropped: the rate-limited walk delivers 0
records where the identical walk without rate-limiting delivers 1 — the
claimed count equality fails. -/
theorem c4_rate_limit_counterexample :
    envRateLimited.rawTasks "l1" = Except.error ⟨true⟩ ∧
    (runWalk envRateLimited).1 = Except.ok () ∧
    deliveredCount envRateLimited = 0 ∧
    deliveredCount envNoLimit = 1 ∧
    deliveredCount envRateLimited ≠ deliveredCount envNoLimit := by
  refine ⟨rfl, rfl, by decide, by decide, by decide⟩

/-- Claim C4 as amended (corrected).  No failure of any fetch — rate-limit
or otherwise — ever propagates out of `getAllTasksInSpace`; and two walks
over the same lists, bulk-task results and folders deliver the same number
of records to the per-task callback no matter how their *detail* fetches
behave (in particular, rate-limiting confined to detail fetches preserves
the count; a rate-limited bulk or enumeration fetch can shrink it, as the
counterexample shows). -/
theorem c4_rate_limit_isolation_amended :
    (∀ env : SpaceEnv, (runWalk env).1 = Except.ok ()) ∧
    (∀ env1 env2 : SpaceEnv,
      env1.listsInSpace = env2.listsInSpace →
      env1.rawTasks = env2.rawTasks →
      env1.folders = env2.folders →
      env1.listsOfFolder = env2.listsOfFolder →
      deliveredCount env1 = deliveredCount env2) := by
  constructor
  · intro env
    rw [runWalk_eq]
  · intro env1 env2 h1 h2 h3 h4
    have hc1 : deliveredCount env1 = walkCountSpec env1 := by
      unfold deliveredCount
      rw [runWalk_eq]
      exact length_walkDeliveredSpec env1
    have hc2 : deliveredCount env2 = walkCountSpec env2 := by
      unfold deliveredCount
      rw [runWalk_eq]
      exact length_walkDeliveredSpec env2
    rw [hc1, hc2]
    unfold walkCountSpec tasksOfR
    rw [h1, h2, h3, h4]

/-- Witness for the amended claim C4: the no-propagation part at the
rate-limited environment, and the count-equality part between two
environments that differ only in their detail-fetch behaviour (one
rate-limits every detail fetch). -/
theorem c4_rate_limit_isolation_amended_witness :
    (runWalk envRateLimited).1 = Except.ok () ∧
    deliveredCount envNoLimit
      = deliveredCount ⟨envNoLimit.listsInSpace, envNoLimit.rawTasks,
          fun _ => .error ⟨true⟩, envNoLimit.folders, envNoLimit.listsOfFolder⟩ :=
  ⟨c4_rate_limit_isolation_amended.1 envRateLimited,
   c4_rate_limit_isolation_amended.2 envNoLimit
     ⟨envNoLimit.listsInSpace, envNoLimit.rawTasks, fun _ => .error ⟨true⟩,
      envNoLimit.folders, envNoLimit.listsOfFolder⟩ rfl rfl rfl rfl⟩

/-- Claim C7 (confirmed).  For a task from the bulk list fetch that is
missing one of the considered-complete fields (`subtasks`, `description`,
`markdown_description`): exactly one additional detail fetch is issued; if
that fetch fails the original partial record is used unchanged (nothing in
hand is lost); if it succeeds its result (the wrapped `.task` member, else
the response itself) is used; and the resulting record is handed to the
output callback exactly once. -/
theorem c7_lazy_completion (env : SpaceEnv) (t : TaskRec) (s : CrawlLog)
    (h : needsFullFetch t = true) :
    ((processTaskM env t).run).run s
        = (Except.ok (finalTaskFor env t),
           { s with detailCalls := s.detailCalls + 1 }) ∧
    (∀ e, env.rawTaskDetail t.id = Except.error e → finalTaskFor env t = t) ∧
    (∀ r, env.rawTaskDetail t.id = Except.ok r → finalTaskFor env t = finalFrom r t) ∧
    ((taskStep env t).run).run s
        = (Except.ok (), ⟨s.delivered ++ [finalTaskFor env t],
                          s.detailCalls + 1⟩) := by
  have hdc : detailCallsFor t = 1 := by unfold detailCallsFor; rw [h]; rfl
  refine ⟨?_, ?_, ?_, ?_⟩
  · rw [processTaskM_run, hdc]
  · intro e he
    unfold finalTaskFor
    rw [h, he]
    rfl
  · intro r hr
    unfold finalTaskFor
    rw [h, hr]
    rfl
  · rw [taskStep_run, hdc]

/-- Witness for claim C7: a task missing its description, against a remote
whose detail fetch is rate-limited — one detail fetch is counted and the
partial record itself is delivered. -/
theorem c7_lazy_completion_witness :
    ((processTaskM ⟨.ok [], fun _ => .ok [], fun _ => .error ⟨true⟩, .ok [], fun _ => .ok []⟩
        ⟨"t0", true, false, true, 5⟩).run).run ⟨[], 0⟩
      = (Except.ok (finalTaskFor
            ⟨.ok [], fun _ => .ok [], fun _ => .error ⟨true⟩, .ok [], fun _ => .ok []⟩
            ⟨"t0", true, false, true, 5⟩),
         ⟨[], 1⟩) ∧
    finalTaskFor ⟨.ok [], fun _ => .ok [], fun _ => .error ⟨true⟩, .ok [], fun _ => .ok []⟩
        ⟨"t0", true, false, true, 5⟩
      = ⟨"t0", true, false, true, 5⟩ :=
  ⟨(c7_lazy_completion _ _ _ (by decide)).1,
   (c7_lazy_completion ⟨.ok [], fun _ => .ok [], fun _ => .error ⟨true⟩, .ok [], fun _ => .ok []⟩
      ⟨"t0", true, false, true, 5⟩ ⟨[], 0⟩ (by decide)).2.1 ⟨true⟩ rfl⟩

/-! ## Ancestor-chain lemmas for the document forest -/

theorem ancStep_zero (rp : String → Option String) (x : String) :
    ancStep rp 0 x = some x := rfl

theorem ancStep_succ (rp : String → Option String) (n : Nat) (x : String) :
    ancStep rp (n + 1) x
      = (match rp x with
         | none => none
         | some p => ancStep rp n p) := rfl

theorem ancStep_top (rp : String → Option String) :
    ∀ (n : Nat) (x : String), ancStep rp (n + 1) x = (ancStep rp n x).bind rp := by
  intro n
  induction n with
  | zero =>
    intro x
    cases hx : rp x <;> simp [ancStep_succ, ancStep_zero, hx]
  | succ m ih =>
    intro x
    cases hx : rp x with
    | none => simp [ancStep_succ, hx]
    | some p =>
      simp only [ancStep_succ, hx]
      exact ih p

theorem ancStep_add (rp : String → Option String) :
    ∀ (b a : Nat) (x : String),
      ancStep rp (a + b) x = (ancStep rp b x).bind (ancStep rp a) := by
  intro b
  induction b with
  | zero => intro a x; simp [ancStep_zero]
  | succ k ih =>
    intro a x
    cases hx : rp x with
    | none =>
      show ancStep rp (a + k + 1) x = (ancStep rp (k + 1) x).bind (ancStep rp a)
      simp [ancStep_succ, hx]
    | some p =>
      show ancStep rp (a + k + 1) x = (ancStep rp (k + 1) x).bind (ancStep rp a)
      simp only [ancStep_succ, hx]
      exact ih a p

theorem ancStep_none_mono (rp : String → Option String) (m n : Nat) (x : String)
    (hmn : m ≤ n) (h : ancStep rp m x = none) : ancStep rp n x = none := by
  have hn : n = (n - m) + m := by omega
  rw [hn, ancStep_add, h]
  rfl

theorem no_self_cycle (keys : List String) (rp : String → Option String)
    (HS : ∀ x p, rp x = some p → x ∈ keys ∧ p ∈ keys)
    (HN : ∀ y ∈ keys, ancStep rp keys.length y = none)
    (d : Nat) (x : String) (h : ancStep rp (d + 1) x = some x) : False := by
  have hx : x ∈ keys := by
    cases hr : rp x with
    | none =>
      rw [ancStep_succ, hr] at h
      exact absurd h (by simp)
    | some p => exact (HS x p hr).1
  have hk : ∀ k, ancStep rp (k * (d + 1)) x = some x := by
    intro k
    induction k with
    | zero => simp [Nat.zero_mul, ancStep_zero]
    | succ j ih =>
      have harr : (j + 1) * (d + 1) = j * (d + 1) + (d + 1) := by ring
      rw [harr, ancStep_add, h]
      exact ih
  have hle : keys.length ≤ keys.length * (d + 1) := by
    have := Nat.mul_le_mul_left keys.length (Nat.succ_le_succ (Nat.zero_le d))
    simpa using this
  have hnone := ancStep_none_mono rp keys.length (keys.length * (d + 1)) x hle (HN x hx)
  rw [hk keys.length] at hnone
  exact absurd hnone (by simp)

theorem exists_root_on_chain (rp : String → Option String) :
    ∀ (n : Nat) (x : String), ancStep rp n x = none →
      ∃ d, d < n ∧ ∃ a, ancStep rp d x = some a ∧ rp a = none := by
  intro n
  induction n with
  | zero => intro x h; exact absurd h (by simp [ancStep_zero])
  | succ m ih =>
    intro x h
    cases hr : rp x with
    | none => exact ⟨0, Nat.succ_pos m, x, rfl, hr⟩
    | some p =>
      rw [ancStep_succ, hr] at h
      obtain ⟨d, hd, a, ha, hrpa⟩ := ih p h
      refine ⟨d + 1, Nat.succ_lt_succ hd, a, ?_, hrpa⟩
      rw [ancStep_succ, hr]
      exact ha

/-- The bounded reachability test: is some ancestor of `x` at distance
below `n` a member of `L`? -/
def condReach (rp : String → Option String) (n : Nat) (L : List String) (x : String) : Bool :=
  (List.range n).any (fun d => L.any (fun a => ancStep rp d x == some a))

/-- The children of identity `p` in the built forest, abstracted over the
key list and the resolved-parent function. -/
def childFilter (keys : List String) (rp : String → Option String) (p : String) : List String :=
  keys.filter (fun c => rp c == some p)

theorem treeChildren_eq_childFilter (docs : List DocIn) (p : String) :
    treeChildren docs p = childFilter (jsKeys docs) (resolvedParent docs) p := rfl

theorem condReach_iff (rp : String → Option String) (n : Nat) (L : List String) (x : String) :
    condReach rp n L x = true ↔ ∃ d, d < n ∧ ∃ a ∈ L, ancStep rp d x = some a := by
  unfold condReach
  simp [List.any_eq_true, List.mem_range]

theorem count_flatMap_str {α : Type} (f : α → List String) (x : String) (l : List α) :
    (l.flatMap f).count x = (l.map (fun a => (f a).count x)).sum := by
  induction l with
  | nil => rfl
  | cons a rest ih => simp [List.flatMap_cons, List.count_append, ih]

theorem sum01 (L : List String) (g : String → Nat) (hnd : L.Nodup)
    (hle : ∀ y ∈ L, g y ≤ 1)
    (hun : ∀ y ∈ L, ∀ y' ∈ L, y ≠ y' → 1 ≤ g y → g y' = 0) :
    (L.map g).sum = if L.any (fun y => g y != 0) then 1 else 0 := by
  induction L with
  | nil => simp
  | cons y rest ih =>
    simp only [List.map_cons, List.sum_cons, List.any_cons]
    by_cases hg : g y = 0
    · have hrec := ih hnd.of_cons
        (fun z hz => hle z (List.mem_cons_of_mem _ hz))
        (fun z hz z' hz' hne h1 =>
          hun z (List.mem_cons_of_mem _ hz) z' (List.mem_cons_of_mem _ hz') hne h1)
      simp [hg, hrec]
    · have h1 : 1 ≤ g y := Nat.pos_of_ne_zero hg
      have hz : ∀ z ∈ rest, g z = 0 := by
        intro z hz
        have hyz : y ≠ z := by
          intro he
          rw [he] at hnd
          exact (List.nodup_cons.mp hnd).1 hz
        exact hun y (List.mem_cons_self _ _) z (List.mem_cons_of_mem _ hz) hyz h1
      have hsum : (rest.map g).sum = 0 := by
        apply List.sum_eq_zero
        intro v hv
        obtain ⟨z, hzm, hzv⟩ := List.mem_map.mp hv
        rw [← hzv]
        exact hz z hzm
      have hle1 := hle y (List.mem_cons_self _ _)
      have hg1 : g y = 1 := by omega
      simp [hsum, hg1]

theorem indep_childFilter (keys : List String) (rp : String → Option String)
    (HS : ∀ x p, rp x = some p → x ∈ keys ∧ p ∈ keys)
    (HN : ∀ y ∈ keys, ancStep rp keys.length y = none) (y : String) :
    ∀ z ∈ childFilter keys rp y, ∀ z' ∈ childFilter keys rp y,
      (∃ d, ancStep rp d z' = some z) → z = z' := by
  intro z hz z' hz' hex
  obtain ⟨d, hd⟩ := hex
  have hrz : rp z = some y := beq_iff_eq.mp (List.mem_filter.mp hz).2
  have hrz' : rp z' = some y := beq_iff_eq.mp (List.mem_filter.mp hz').2
  cases d with
  | zero =>
    rw [ancStep_zero] at hd
    exact (Option.some.inj hd).symm
  | succ e =>
    exfalso
    have h1 : ancStep rp 1 z' = some y := by
      rw [ancStep_succ, hrz']
      rfl
    have h2 : ancStep rp (e + 1) z' = ancStep rp e y := by
      rw [ancStep_add rp 1 e z', h1]
      rfl
    have h3 : ancStep rp e y = some z := by rw [← h2]; exact hd
    have h4 : ancStep rp 1 z = some y := by
      rw [ancStep_succ, hrz]
      rfl
    have h5 : ancStep rp (e + 1) z = some z := by
      rw [ancStep_add rp 1 e z, h4]
      exact h3
    exact no_self_cycle keys rp HS HN e z h5

theorem anc_between (rp : String → Option String) (x y y' : String) (e e' : Nat)
    (h : e ≤ e') (he : ancStep rp e x = some y) (he' : ancStep rp e' x = some y') :
    ∃ dd, ancStep rp dd y = some y' := by
  refine ⟨e' - e, ?_⟩
  have harr : e' = (e' - e) + e := by omega
  rw [harr, ancStep_add rp e (e' - e) x, he] at he'
  exact he'

theorem reach_count (keys : List String) (rp : String → Option String)
    (hnd : keys.Nodup)
    (HS : ∀ x p, rp x = some p → x ∈ keys ∧ p ∈ keys)
    (HN : ∀ y ∈ keys, ancStep rp keys.length y = none) :
    ∀ (n : Nat) (L : List String), L.Nodup →
      (∀ y ∈ L, ∀ y' ∈ L, (∃ d, ancStep rp d y' = some y) → y = y') →
      ∀ x, (reachIds (childFilter keys rp) n L).count x
        = if condReach rp n L x then 1 else 0 := by
  intro n
  induction n with
  | zero =>
    intro L _ _ x
    simp [reachIds, condReach]
  | succ m ih =>
    intro L hLnd hLind x
    have hexp : reachIds (childFilter keys rp) (m + 1) L
        = L.flatMap (fun y =>
            y :: reachIds (childFilter keys rp) m (childFilter keys rp y)) := rfl
    rw [hexp, count_flatMap_str]
    have hblock : ∀ y ∈ L,
        ((y :: reachIds (childFilter keys rp) m (childFilter keys rp y)).count x)
          = (if condReach rp m (childFilter keys rp y) x then 1 else 0)
            + (if y == x then 1 else 0) := by
      intro y _
      rw [List.count_cons]
      congr 1
      exact ih (childFilter keys rp y) (hnd.filter _)
        (indep_childFilter keys rp HS HN y) x
    rw [List.map_congr_left hblock]
    have hP : ∀ y ∈ L,
        1 ≤ (if condReach rp m (childFilter keys rp y) x then 1 else 0)
              + (if y == x then 1 else 0) →
        ∃ e, e ≤ m ∧ ancStep rp e x = some y := by
      intro y _ h1
      by_cases hyx : (y == x) = true
      · refine ⟨0, Nat.zero_le m, ?_⟩
        rw [ancStep_zero, beq_iff_eq.mp hyx]
      · have hcr : condReach rp m (childFilter keys rp y) x = true := by
          by_contra hc
          simp [hyx, hc] at h1
        obtain ⟨d, hdm, a, haL, hanc⟩ := (condReach_iff rp m _ x).mp hcr
        have hrpa : rp a = some y := beq_iff_eq.mp (List.mem_filter.mp haL).2
        refine ⟨d + 1, by omega, ?_⟩
        rw [ancStep_top, hanc]
        exact hrpa
    have hle : ∀ y ∈ L,
        (if condReach rp m (childFilter keys rp y) x then 1 else 0)
          + (if y == x then 1 else 0) ≤ 1 := by
      intro y _
      by_cases hyx : (y == x) = true
      · by_cases hcr : condReach rp m (childFilter keys rp y) x = true
        · exfalso
          obtain ⟨d, hdm, a, haL, hanc⟩ := (condReach_iff rp m _ x).mp hcr
          have hrpa : rp a = some y := beq_iff_eq.mp (List.mem_filter.mp haL).2
          have hyx2 : y = x := beq_iff_eq.mp hyx
          have hcyc : ancStep rp (d + 1) x = some x := by
            rw [ancStep_top, hanc]
            rw [hyx2] at hrpa
            exact hrpa
          exact no_self_cycle keys rp HS HN d x hcyc
        · simp [hyx, hcr]
      · by_cases hcr : condReach rp m (childFilter keys rp y) x = true <;>
          simp [hyx, hcr]
    have hun : ∀ y ∈ L, ∀ y' ∈ L, y ≠ y' →
        1 ≤ (if condReach rp m (childFilter keys rp y) x then 1 else 0)
              + (if y == x then 1 else 0) →
        (if condReach rp m (childFilter keys rp y') x then 1 else 0)
          + (if y' == x then 1 else 0) = 0 := by
      intro y hy y' hy' hne h1
      by_contra hg'
      have h1' : 1 ≤ (if condReach rp m (childFilter keys rp y') x then 1 else 0)
          + (if y' == x then 1 else 0) := Nat.pos_of_ne_zero hg'
      obtain ⟨e, hem, he⟩ := hP y hy h1
      obtain ⟨e', he'm, he'⟩ := hP y' hy' h1'
      rcases Nat.le_total e e' with hee | hee
      · exact hne (hLind y' hy' y hy (anc_between rp x y y' e e' hee he he')).symm
      · exact hne (hLind y hy y' hy' (anc_between rp x y' y e' e hee he' he))
    rw [sum01 L _ hLnd hle hun]
    have hbr : (L.any (fun y =>
        ((if condReach rp m (childFilter keys rp y) x then 1 else 0)
          + (if y == x then 1 else 0)) != 0))
        = condReach rp (m + 1) L x := by
      rw [Bool.eq_iff_iff]
      constructor
      · intro hany
        obtain ⟨y, hy, hgy⟩ := List.any_eq_true.mp hany
        have h1 : 1 ≤ (if condReach rp m (childFilter keys rp y) x then 1 else 0)
            + (if y == x then 1 else 0) := Nat.pos_of_ne_zero (by simpa using hgy)
        obtain ⟨e, hem, he⟩ := hP y hy h1
        exact (condReach_iff rp (m + 1) L x).mpr ⟨e, by omega, y, hy, he⟩
      · intro hcr
        obtain ⟨d, hdm, y, hyL, hanc⟩ := (condReach_iff rp (m + 1) L x).mp hcr
        apply List.any_eq_true.mpr
        refine ⟨y, hyL, ?_⟩
        cases d with
        | zero =>
          rw [ancStep_zero] at hanc
          have hxy : y = x := (Option.some.inj hanc).symm
          simp [hxy]
        | succ e =>
          rw [ancStep_top] at hanc
          cases ha : ancStep rp e x with
          | none =>
            rw [ha] at hanc
            exact absurd hanc (by simp)
          | some a =>
            rw [ha] at hanc
            have hrpa : rp a = some y := hanc
            have haK : a ∈ keys := (HS a y hrpa).1
            have haCF : a ∈ childFilter keys rp y :=
              List.mem_filter.mpr ⟨haK, by simp [hrpa]⟩
            have hcr2 : condReach rp m (childFilter keys rp y) x = true :=
              (condReach_iff rp m _ x).mpr ⟨e, by omega, a, haCF, ha⟩
            simp [hcr2]
    rw [hbr]

theorem mem_foldl_keys (docs : List DocIn) :
    ∀ (acc : List String) (x : String),
      (x ∈ docs.foldl (fun ks d => if ks.contains d.id then ks else ks ++ [d.id]) acc
        ↔ x ∈ acc ∨ x ∈ docs.map (fun d => d.id)) := by
  induction docs with
  | nil => intro acc x; simp
  | cons d rest ih =>
    intro acc x
    rw [List.foldl_cons, ih]
    by_cases hc : acc.contains d.id = true
    · have hmem : d.id ∈ acc := (contains_eq_true_iff _ _).mp hc
      rw [if_pos hc]
      simp only [List.map_cons, List.mem_cons]
      constructor
      · rintro (h | h)
        · exact Or.inl h
        · exact Or.inr (Or.inr h)
      · rintro (h | h | h)
        · exact Or.inl h
        · exact Or.inl (by rw [h]; exact hmem)
        · exact Or.inr h
    · rw [if_neg hc]
      simp [List.mem_append, or_assoc]

theorem mem_jsKeys (docs : List DocIn) (x : String) :
    x ∈ jsKeys docs ↔ x ∈ docs.map (fun d => d.id) := by
  unfold jsKeys
  rw [mem_foldl_keys]
  simp

theorem jsKeys_nodup (docs : List DocIn) : (jsKeys docs).Nodup := by
  unfold jsKeys
  have haux : ∀ (acc : List String), acc.Nodup →
      (docs.foldl (fun ks d => if ks.contains d.id then ks else ks ++ [d.id]) acc).Nodup := by
    induction docs with
    | nil => intro acc h; exact h
    | cons d rest ih =>
      intro acc h
      rw [List.foldl_cons]
      apply ih
      by_cases hc : acc.contains d.id = true
      · rw [if_pos hc]; exact h
      · rw [if_neg hc]
        have hnm : d.id ∉ acc := fun hm => hc ((contains_eq_true_iff _ _).mpr hm)
        simp [List.nodup_append, h, hnm]
  exact haux [] (by simp)

theorem resolvedParent_scope (docs : List DocIn) :
    ∀ x p, resolvedParent docs x = some p → x ∈ jsKeys docs ∧ p ∈ jsKeys docs := by
  intro x p h
  unfold resolvedParent at h
  cases hl : lastParentId docs x with
  | none => rw [hl] at h; exact absurd h (by simp)
  | some q =>
    rw [hl] at h
    dsimp only at h
    by_cases hc : (jsKeys docs).contains q = true
    · rw [if_pos hc] at h
      have hqp : q = p := Option.some.inj h
      have hp : p ∈ jsKeys docs := by
        rw [← hqp]
        exact (contains_eq_true_iff _ _).mp hc
      have hx : x ∈ jsKeys docs := by
        unfold lastParentId at hl
        cases hf : docs.reverse.find? (fun d => d.id == x) with
        | none => rw [hf] at hl; exact absurd hl (by simp)
        | some d0 =>
          have hd0 : d0 ∈ docs.reverse := List.mem_of_find?_eq_some hf
          have hpd := @List.find?_some DocIn (fun d => d.id == x) d0 docs.reverse hf
          have hid : d0.id = x := beq_iff_eq.mp hpd
          apply (mem_jsKeys docs x).mpr
          rw [← hid]
          exact List.mem_map_of_mem _ (List.mem_reverse.mp hd0)
      exact ⟨hx, hp⟩
    · rw [if_neg hc] at h
      exact absurd h (by simp)

theorem treeRoots_indep (docs : List DocIn) :
    ∀ y ∈ treeRoots docs, ∀ y' ∈ treeRoots docs,
      (∃ d, ancStep (resolvedParent docs) d y' = some y) → y = y' := by
  intro y _ y' hy' hex
  obtain ⟨d, hd⟩ := hex
  cases d with
  | zero =>
    rw [ancStep_zero] at hd
    exact (Option.some.inj hd).symm
  | succ e =>
    exfalso
    have hroot : (resolvedParent docs y').isNone = true := (List.mem_filter.mp hy').2
    have hnone : resolvedParent docs y' = none := Option.isNone_iff_eq_none.mp hroot
    rw [ancStep_succ, hnone] at hd
    exact absurd hd (by simp)

/-- Claim C1 counterexample.  A self-referencing parent reference makes the
node vanish from the returned forest: with the single input document `a`
whose parent reference is `a` itself, the node is appended to its own
`children` array and is never pushed to `rootNodes`, so the returned forest
is empty and the identity `a` appears zero times — not exactly once as the
claim asserts for cyclic and self-referencing inputs. -/
theorem c1_buildDocumentTree_counterexample :
    "a" ∈ ([⟨"a", some "a"⟩] : List DocIn).map (fun d => d.id) ∧
    treeRoots [⟨"a", some "a"⟩] = [] ∧
    (forestIds [⟨"a", some "a"⟩]).count "a" = 0 := by
  refine ⟨by decide, by decide, by decide⟩

/-- Claim C1 as amended (corrected).  Provided every identity's resolved
parent chain terminates (no identity sits on or below a parent-reference
cycle), every input node identity appears in the forest returned by
`buildDocumentTree` exactly once — no identity is duplicated and none is
omitted.  Under a cyclic or self-referencing parent chain the affected
identities are omitted from the forest, as the counterexample shows. -/
theorem c1_buildDocumentTree_amended (docs : List DocIn) (hacyc : AcyclicDocs docs)
    (x : String) (hx : x ∈ docs.map (fun d => d.id)) :
    (forestIds docs).count x = 1 := by
  have hxk : x ∈ jsKeys docs := (mem_jsKeys docs x).mpr hx
  have HS := resolvedParent_scope docs
  have hmain := reach_count (jsKeys docs) (resolvedParent docs) (jsKeys_nodup docs) HS hacyc
    ((jsKeys docs).length + 1) (treeRoots docs) ((jsKeys_nodup docs).filter _)
    (treeRoots_indep docs) x
  have hfe : forestIds docs
      = reachIds (childFilter (jsKeys docs) (resolvedParent docs))
          ((jsKeys docs).length + 1) (treeRoots docs) := rfl
  rw [hfe, hmain]
  have hcond : condReach (resolvedParent docs) ((jsKeys docs).length + 1)
      (treeRoots docs) x = true := by
    obtain ⟨d, hd, a, ha, hrpa⟩ :=
      exists_root_on_chain (resolvedParent docs) (jsKeys docs).length x (hacyc x hxk)
    have haK : a ∈ jsKeys docs := by
      cases d with
      | zero =>
        rw [ancStep_zero] at ha
        exact (Option.some.inj ha) ▸ hxk
      | succ e =>
        rw [ancStep_top] at ha
        cases hae : ancStep (resolvedParent docs) e x with
        | none => rw [hae] at ha; exact absurd ha (by simp)
        | some b =>
          rw [hae] at ha
          exact (HS b a ha).2
    have haR : a ∈ treeRoots docs := by
      unfold treeRoots
      exact List.mem_filter.mpr ⟨haK, by simp [hrpa]⟩
    exact (condReach_iff _ _ _ _).mpr ⟨d, by omega, a, haR, ha⟩
  rw [hcond]
  rfl

/-- Witness for the amended claim C1 at a concrete acyclic two-document
input. -/
theorem c1_buildDocumentTree_amended_witness :
    (forestIds [⟨"a", none⟩, ⟨"b", some "a"⟩]).count "b" = 1 :=
  c1_buildDocumentTree_amended [⟨"a", none⟩, ⟨"b", some "a"⟩]
    (by unfold AcyclicDocs; decide) "b" (by decide)

/-! ## Markdown rendering (`convertToMarkdown` in `src/src/crawler.ts`) -/

/-- A JavaScript runtime `TypeError`/`RangeError`, carrying the operation
that raised it (documentation only). -/
structure JsTypeError where
  site : String
deriving DecidableEq, Repr

/-- The strict-equality test `v.type === tag` for a string tag: true only
when the `type` member is exactly that string. -/
def jsTypeIs (v : JVal) (tag : String) : Bool :=
  match jsGet v "type" with
  | some (.str s) => s == tag
  | _ => false

/-- A JavaScript number as far as the `"#".repeat` count coercion is
concerned: `NaN`, a signed infinity, or the exact decimal rational
`m / 10 ^ k` (the value of every `StringNumericLiteral` has this form,
hex/octal/binary literals having `k = 0`). -/
inductive JSNum where
  | nan
  | inf (neg : Bool)
  | rat (m : Int) (k : Nat)

/-- Value of a decimal digit character. -/
def decDigit (c : Char) : Option Nat :=
  if 48 ≤ c.toNat && c.toNat ≤ 57 then some (c.toNat - 48) else none

/-- Value of a hexadecimal digit character. -/
def hexDigit (c : Char) : Option Nat :=
  if 48 ≤ c.toNat && c.toNat ≤ 57 then some (c.toNat - 48)
  else if 97 ≤ c.toNat && c.toNat ≤ 102 then some (c.toNat - 87)
  else if 65 ≤ c.toNat && c.toNat ≤ 70 then some (c.toNat - 55)
  else none

/-- Value of an octal digit character. -/
def octDigit (c : Char) : Option Nat :=
  if 48 ≤ c.toNat && c.toNat ≤ 55 then some (c.toNat - 48) else none

/-- Value of a binary digit character. -/
def binDigit (c : Char) : Option Nat :=
  if 48 ≤ c.toNat && c.toNat ≤ 49 then some (c.toNat - 48) else none

/-- Accumulate a digit string in the given base; fails on the first
non-digit. -/
def digitsAcc (dig : Char → Option Nat) (base : Nat) (acc : Nat) : List Char → Option Nat
  | [] => some acc
  | c :: rest =>
      match dig c with
      | some d => digitsAcc dig base (base * acc + d) rest
      | none => none

/-- A non-empty all-digit string in the given base, or failure. -/
def allDigits (dig : Char → Option Nat) (base : Nat) : List Char → Option Nat
  | [] => none
  | c :: rest => digitsAcc dig base 0 (c :: rest)

/-- Split off a maximal (possibly empty) leading run of decimal digits. -/
def takeDigits : List Char → (List Nat × List Char)
  | [] => ([], [])
  | c :: rest =>
      match decDigit c with
      | some d =>
          match takeDigits rest with
          | (ds, r) => (d :: ds, r)
      | none => ([], c :: rest)

/-- Numeric value of a digit run. -/
def digitsToNat (ds : List Nat) : Nat :=
  ds.foldl (fun a d => a * 10 + d) 0

/-- The `ExponentPart` of a `StrDecimalLiteral`, which must consume the
whole remainder of the string: absent (`0`), or `e`/`E`, an optional sign
and a non-empty digit run. -/
def parseExponent : List Char → Option Int
  | [] => some 0
  | c :: rest =>
      if c == 'e' || c == 'E' then
        match rest with
        | '+' :: ds => (allDigits decDigit 10 ds).map (fun n => (n : Int))
        | '-' :: ds => (allDigits decDigit 10 ds).map (fun n => -(n : Int))
        | ds => (allDigits decDigit 10 ds).map (fun n => (n : Int))
      else none

/-- Combine an unsigned mantissa `m0` with `k0` fractional digits and a
decimal exponent `e` into the pair `(m, k)` representing `m / 10 ^ k`. -/
def scaleValue (m0 : Nat) (k0 : Nat) (e : Int) : Nat × Nat :=
  if (k0 : Int) ≤ e then (m0 * 10 ^ (e - (k0 : Int)).toNat, 0)
  else (m0, ((k0 : Int) - e).toNat)

/-- An unsigned `StrUnsignedDecimalLiteral` (digits, an optional dot with
further digits, an optional exponent), consuming the whole string: at least
one digit must appear on one side of the dot. -/
def parseDecimal (l : List Char) : Option (Nat × Nat) :=
  match takeDigits l with
  | (ids, r1) =>
      match r1 with
      | '.' :: r2 =>
          match takeDigits r2 with
          | (fds, r3) =>
              if ids.isEmpty && fds.isEmpty then none
              else (parseExponent r3).map (fun e => scaleValue (digitsToNat (ids ++ fds)) fds.length e)
      | r2 =>
          if ids.isEmpty then none
          else (parseExponent r2).map (fun e => scaleValue (digitsToNat ids) 0 e)

/-- A signed decimal literal or `Infinity` (the sign is only admitted by
the decimal production, so `"-0x10"` is `NaN`). -/
def signedDec (neg : Bool) (l : List Char) : JSNum :=
  if l == "Infinity".data then .inf neg
  else
    match parseDecimal l with
    | some (m, k) => .rat (if neg then -(m : Int) else (m : Int)) k
    | none => .nan

/-- A non-decimal integer literal body in the given base. -/
def baseLiteral (dig : Char → Option Nat) (base : Nat) (l : List Char) : JSNum :=
  match allDigits dig base l with
  | some n => .rat (n : Int) 0
  | none => .nan

/-- JavaScript `Number(string)`: trim the `\s` class, empty means `0`, a
`0x`/`0o`/`0b` prefix (unsigned) selects a non-decimal integer literal,
otherwise an optionally signed decimal literal or `Infinity`; anything
else is `NaN`. -/
def jsStrToNumber (s : String) : JSNum :=
  match trimJS s.data with
  | [] => .rat 0 0
  | '0' :: 'x' :: ds => baseLiteral hexDigit 16 ds
  | '0' :: 'X' :: ds => baseLiteral hexDigit 16 ds
  | '0' :: 'o' :: ds => baseLiteral octDigit 8 ds
  | '0' :: 'O' :: ds => baseLiteral octDigit 8 ds
  | '0' :: 'b' :: ds => baseLiteral binDigit 2 ds
  | '0' :: 'B' :: ds => baseLiteral binDigit 2 ds
  | '+' :: rest => signedDec false rest
  | '-' :: rest => signedDec true rest
  | l => signedDec false l

/-- `ToNumber` on the operand of the heading `repeat`: numbers are exact,
`true` is 1, strings parse as numeric literals, arrays coerce through
`Array.prototype.toString` (join with `","`) and then parse as strings,
plain objects are `NaN` (their `ToPrimitive` is `"[object Object]"`). -/
def toNumberForRepeat (v : JVal) : JSNum :=
  match v with
  | .num n => .rat n 0
  | .bool b => .rat (if b then 1 else 0) 0
  | .null => .rat 0 0
  | .str s => jsStrToNumber s
  | .arr items => jsStrToNumber (jsToString (.arr items))
  | .obj _ => .nan

/-- Truncation toward zero of `m / 10 ^ k` (the `ToIntegerOrInfinity` step
of `repeat` on a finite value). -/
def truncJS (m : Int) (k : Nat) : Int :=
  if 0 ≤ m then ((m.toNat / 10 ^ k : Nat) : Int)
  else -((((-m).toNat / 10 ^ k : Nat) : Int))

/-- The count check of `"#".repeat(count)`: `NaN` truncates to 0, an
infinite or negative count raises a `RangeError`, and a count exceeding
the ECMAScript maximum string length `2 ^ 53 - 1` raises a `RangeError`
while building the result.  (Engines cap string lengths lower still —
V8 near `2 ^ 29` — so a count between those bounds raises on some
platforms; `levelOK` below therefore certifies only counts at most
`65535`, comfortably under every engine's limit.) -/
def repeatCount (x : JSNum) : Except JsTypeError Nat :=
  match x with
  | .nan => .ok 0
  | .inf _ => .error ⟨"repeat with infinite count"⟩
  | .rat m k =>
      let t := truncJS m k
      if t < 0 then .error ⟨"repeat with negative count"⟩
      else if 2 ^ 53 - 1 < t then .error ⟨"repeat result exceeds the maximum string length"⟩
      else .ok t.toNat

/-- The heading branch's `"#".repeat(content.attrs?.level || 1)` count:
the optional chain yields the `level` member only when `attrs` is an
object (on any other receiver the member access gives `undefined`), a
falsy level defaults to 1, and a truthy level goes through the `Number`
coercion and the `repeat` count check above. -/
def headingLevel (fields : List (String × JVal)) : Except JsTypeError Nat :=
  let lvl :=
    match jsGet (.obj fields) "attrs" with
    | some (.obj afs) => jsGet (.obj afs) "level"
    | _ => none
  if jsTruthy lvl then
    match lvl with
    | some v => repeatCount (toNumberForRepeat v)
    | none => .ok 1
  else
    .ok 1

/-- The mark's `type` member when it is a string (a `mark.type === "..."`
comparison can only succeed on a string member). -/
def markType (mark : JVal) : Option String :=
  match jsGet mark "type" with
  | some (.str s) => some s
  | _ => none

/-- The `mark.attrs?.href || ""` link target (coerced to text). -/
def markHref (mark : JVal) : String :=
  match jsGet mark "attrs" with
  | some (.obj afs) =>
      match jsGet (.obj afs) "href" with
      | some h => if jsTruthy (some h) then jsToString h else ""
      | none => ""
  | _ => ""

/-- The `for (const mark of content.marks)` loop of the `text` branch:
wraps the running text in bold/italic/code/link syntax in encounter order;
accessing `.type` on a `null` mark raises a `TypeError`. -/
def applyMarks : List JVal → String → Except JsTypeError String
  | [], text => .ok text
  | mark :: rest, text =>
      match mark with
      | .null => .error ⟨"cannot read type of null"⟩
      | m =>
          let text' :=
            if markType m == some "bold" then "**" ++ text ++ "**"
            else if markType m == some "italic" then "*" ++ text ++ "*"
            else if markType m == some "code" then "`" ++ text ++ "`"
            else if markType m == some "link" then "[" ++ text ++ "](" ++ markHref m ++ ")"
            else text
          applyMarks rest text'

/-- The `text` branch: `content.text || ""` (non-string truthy text values
are coerced to text here, where the source coerces them at the template
wraps and the final joins — observationally the same), then the mark loop;
`for...of` over a truthy non-array `marks` value raises a `TypeError`. -/
def textWithMarks (fields : List (String × JVal)) : Except JsTypeError String :=
  let text0 :=
    match jsGet (.obj fields) "text" with
    | some t => if jsTruthy (some t) then jsToString t else ""
    | none => ""
  match jsGet (.obj fields) "marks" with
  | some m =>
      if jsTruthy (some m) then
        match m with
        | .arr marks => applyMarks marks text0
        | _ => .error ⟨"marks is not iterable"⟩
      else .ok text0
  | none => .ok text0

theorem sizeOf_jsGet (v : JVal) (k : String) (w : JVal) (h : jsGet v k = some w) :
    sizeOf w < sizeOf v := by
  cases v with
  | obj fields =>
    unfold jsGet at h
    dsimp only at h
    cases hf : fields.reverse.find? (fun kv => kv.1 == k) with
    | none => rw [hf] at h; simp at h
    | some kv =>
      rw [hf] at h
      have hm2 : kv ∈ fields := List.mem_reverse.mp (List.mem_of_find?_eq_some hf)
      have h1 : sizeOf kv < sizeOf fields := List.sizeOf_lt_of_mem hm2
      rcases kv with ⟨a, b⟩
      have hw : b = w := by
        have h2 : some b = some w := h
        exact Option.some.inj h2
      subst hw
      simp only [Prod.mk.sizeOf_spec] at h1
      simp only [JVal.obj.sizeOf_spec]
      omega
  | str s => simp [jsGet] at h
  | num n => simp [jsGet] at h
  | bool b => simp [jsGet] at h
  | null => simp [jsGet] at h
  | arr items => simp [jsGet] at h

mutual
/-- `convertToMarkdown`: strings pass through; arrays render each element
and join with blank lines; plain objects dispatch on their `type` tag;
numbers, booleans and `null` fall through to `String(content)`.  A
`JsTypeError` result models the JavaScript exceptions the source can raise
on malformed input (iterating a non-array `marks`, calling `.map` on a
non-array list-item `content`, reading `.text` on a `null` node, a negative
heading level). -/
def convertToMarkdown (content : JVal) : Except JsTypeError String :=
  match content with
  | .str s => .ok s
  | .arr items => do
      let parts ← convertArr items
      .ok (strJoin "\n\n" parts)
  | .obj fields => convertObj fields
  | .num n => .ok (jsToString (.num n))
  | .bool b => .ok (jsToString (.bool b))
  | .null => .ok (jsToString .null)

termination_by (sizeOf content, 2)
decreasing_by all_goals (simp_wf; omega)
/-- The `content.map(item => this.convertToMarkdown(item))` traversal. -/
def convertArr (items : List JVal) : Except JsTypeError (List String) :=
  match items with
  | [] => .ok []
  | v :: rest => do
      let s ← convertToMarkdown v
      let srest ← convertArr rest
      .ok (s :: srest)

termination_by (sizeOf items, 0)
decreasing_by all_goals (simp_wf; omega)
/-- The object branch of `convertToMarkdown`: the `doc`, `paragraph`,
`heading`, `bulletList`/`orderedList`, `listItem` and `text` cases in
source order, then the untyped-`content` fallback, then
`String(content)` (`"[object Object]"`). -/
def convertObj (fields : List (String × JVal)) : Except JsTypeError String :=
  if jsTypeIs (.obj fields) "doc" && jsTruthy (jsGet (.obj fields) "content") then
    match h : jsGet (.obj fields) "content" with
    | some c => convertToMarkdown c
    | none => .ok ""
  else if jsTypeIs (.obj fields) "paragraph" && jsTruthy (jsGet (.obj fields) "content") then
    match h : jsGet (.obj fields) "content" with
    | some c => do
        let s ← convertToMarkdown c
        .ok (s ++ "\n")
    | none => .ok ""
  else if jsTypeIs (.obj fields) "heading" then do
    let text ← extractText (.obj fields)
    match headingLevel fields with
    | .error e => .error e
    | .ok lvl => .ok (String.mk (List.replicate lvl '#') ++ " " ++ text ++ "\n")
  else if jsTypeIs (.obj fields) "bulletList" || jsTypeIs (.obj fields) "orderedList" then
    convertList (.obj fields)
  else if jsTypeIs (.obj fields) "listItem" then do
    let text ← extractText (.obj fields)
    .ok ("- " ++ text ++ "\n")
  else if jsTypeIs (.obj fields) "text" then
    textWithMarks fields
  else
    match h : jsGet (.obj fields) "content" with
    | some c => if jsTruthy (some c) then convertToMarkdown c else .ok "[object Object]"
    | none => .ok "[object Object]"

termination_by (sizeOf (JVal.obj fields), 1)
decreasing_by
  all_goals simp_wf
  all_goals
    first
    | omega
    | (have hlt := sizeOf_jsGet _ _ _ h
       simp only [JVal.obj.sizeOf_spec, JVal.arr.sizeOf_spec] at hlt
       omega)
/-- `convertList`: an absent or non-array `content` yields the empty
string; otherwise each `listItem` renders one `- ` line, non-items render
empty strings which the `.filter(s => s)` drops, joined with newlines. -/
def convertList (node : JVal) : Except JsTypeError String :=
  match h : jsGet node "content" with
  | some (.arr items) => do
      let parts ← convertListItems items
      .ok (strJoin "\n" (parts.filter (fun s => !(s == ""))))
  | _ => .ok ""

/-- One `item` of the list traversal: `item.type` on `null` raises;
a `listItem` with truthy `content` maps `extractText` over it (raising if
that `content` is not an array, since `.map` is not a function there) and
joins with spaces; everything else contributes an empty string. -/
def convertListItems (items : List JVal) : Except JsTypeError (List String) :=
  match items with
  | [] => .ok []
  | item :: rest => do
      let s ← (match item with
        | .null => (.error ⟨"cannot read type of null"⟩ : Except JsTypeError String)
        | v =>
            if jsTypeIs v "listItem" && jsTruthy (jsGet v "content") then
              match h : jsGet v "content" with
              | some (.arr cs) => do
                  let parts ← extractArr cs
                  pure ("- " ++ strJoin " " parts)
              | some _ => .error ⟨"item content map is not a function"⟩
              | none => pure ""
            else pure "")
      let srest ← convertListItems rest
      .ok (s :: srest)

termination_by (sizeOf items, 0)
decreasing_by all_goals (simp_wf; omega)
/-- `extractText`: strings pass through; reading `.text` on `null` raises;
a truthy `text` member is returned (coerced); an array `content` maps
`extractText` over its elements and joins with the empty string; a truthy
non-array `content` recurses; everything else yields the empty string. -/
def extractText (node : JVal) : Except JsTypeError String :=
  match node with
  | .str s => .ok s
  | .null => .error ⟨"cannot read text of null"⟩
  | v =>
      match jsGet v "text" with
      | some t =>
          if jsTruthy (some t) then .ok (jsToString t)
          else extractTextContent v
      | none => extractTextContent v

termination_by (sizeOf node, 1)
decreasing_by all_goals (simp_wf; omega)
/-- The `content`-directed tail of `extractText`. -/
def extractTextContent (node : JVal) : Except JsTypeError String :=
  match h : jsGet node "content" with
  | some (.arr items) => do
      let parts ← extractArr items
      .ok (strJoin "" parts)
  | some c => if jsTruthy (some c) then extractText c else .ok ""
  | none => .ok ""

termination_by (sizeOf node, 0)
decreasing_by
  all_goals simp_wf
  all_goals
    first
    | omega
    | (have hlt := sizeOf_jsGet _ _ _ h
       simp only [JVal.obj.sizeOf_spec, JVal.arr.sizeOf_spec] at hlt
       omega)
/-- The `node.content.map(item => this.extractText(item))` traversal. -/
def extractArr (items : List JVal) : Except JsTypeError (List String) :=
  match items with
  | [] => .ok []
  | v :: rest => do
      let s ← extractText v
      let srest ← extractArr rest
      .ok (s :: srest)
termination_by (sizeOf items, 0)
decreasing_by all_goals (simp_wf; omega)
end

/-- `Except` success test. -/
def isOkE {α : Type} : Except JsTypeError α → Bool
  | .ok _ => true
  | .error _ => false

/-- Well-formedness of a truthy `marks` member: it must be an array, or the
`for...of` iteration raises. -/
def marksOK (fields : List (String × JVal)) : Bool :=
  match jsGet (.obj fields) "marks" with
  | some m => !jsTruthy (some m) || (match m with | .arr _ => true | _ => false)
  | none => true

/-- Well-formedness of the heading level: the coerced `repeat` count must
not raise — and, more strictly, must stay at most `65535`, so that the
certified inputs also sit below every engine's string-length cap (the
embedding's `repeatCount` raises only at the ECMAScript `2 ^ 53 - 1`
bound). -/
def levelOK (fields : List (String × JVal)) : Bool :=
  match headingLevel fields with
  | .ok n => decide (n ≤ 65535)
  | .error _ => false

/-- Well-formedness of a `listItem` node's truthy `content`: it must be an
array, or the `.map` call raises. -/
def itemContentOK (fields : List (String × JVal)) : Bool :=
  if jsTypeIs (.obj fields) "listItem" && jsTruthy (jsGet (.obj fields) "content") then
    match jsGet (.obj fields) "content" with
    | some (.arr _) => true
    | _ => false
  else true

mutual
/-- A sufficient well-formedness condition for the renderer: no `null`
values anywhere (reading a member of `null` raises), truthy `marks` members
are arrays, truthy heading levels coerce to small non-negative `repeat`
counts (`levelOK`), and a `listItem`'s truthy `content` is an array. -/
def jWF : JVal → Bool
  | .str _ => true
  | .num _ => true
  | .bool _ => true
  | .null => false
  | .arr items => jWFList items
  | .obj fields => jWFFields fields && marksOK fields && levelOK fields && itemContentOK fields

def jWFList : List JVal → Bool
  | [] => true
  | v :: rest => jWF v && jWFList rest

def jWFFields : List (String × JVal) → Bool
  | [] => true
  | (_, v) :: rest => jWF v && jWFFields rest
end

theorem isOkE_iff {α : Type} (e : Except JsTypeError α) :
    isOkE e = true ↔ ∃ a, e = .ok a := by
  cases e with
  | ok a => simp [isOkE]
  | error e => simp [isOkE]

theorem bindExc_ok {α β : Type} (e : Except JsTypeError α) (f : α → Except JsTypeError β)
    (a : α) (h : e = .ok a) : (e >>= f) = f a := by
  rw [h]; rfl

theorem jWF_obj (fields : List (String × JVal)) :
    jWF (.obj fields) = (jWFFields fields && marksOK fields && levelOK fields && itemContentOK fields) := rfl

theorem jWF_arr (items : List JVal) : jWF (.arr items) = jWFList items := rfl

theorem jWFList_cons (v : JVal) (rest : List JVal) :
    jWFList (v :: rest) = (jWF v && jWFList rest) := rfl

theorem jWFFields_cons (k : String) (v : JVal) (rest : List (String × JVal)) :
    jWFFields ((k, v) :: rest) = (jWF v && jWFFields rest) := rfl

theorem jWFFields_mem : ∀ (fields : List (String × JVal)) (a : String) (b : JVal),
    jWFFields fields = true → (a, b) ∈ fields → jWF b = true := by
  intro fields
  induction fields with
  | nil => intro a b _ hm; cases hm
  | cons kv rest ih =>
    intro a b hwf hm
    rcases kv with ⟨k, v⟩
    rw [jWFFields_cons] at hwf
    simp only [Bool.and_eq_true] at hwf
    rcases List.mem_cons.mp hm with heq | htail
    · cases heq
      exact hwf.1
    · exact ih a b hwf.2 htail

theorem jWF_jsGet (v : JVal) (k : String) (c : JVal)
    (hwf : jWF v = true) (h : jsGet v k = some c) : jWF c = true := by
  cases v with
  | obj fields =>
    unfold jsGet at h
    dsimp only at h
    cases hf : fields.reverse.find? (fun kv => kv.1 == k) with
    | none => rw [hf] at h; simp at h
    | some kv =>
      rw [hf] at h
      have hm2 : kv ∈ fields := List.mem_reverse.mp (List.mem_of_find?_eq_some hf)
      rcases kv with ⟨a, b⟩
      have hbc : b = c := by
        have h2 : some b = some c := h
        exact Option.some.inj h2
      subst hbc
      rw [jWF_obj] at hwf
      simp only [Bool.and_eq_true] at hwf
      exact jWFFields_mem fields a b hwf.1.1.1 hm2
  | str s => simp [jsGet] at h
  | num n => simp [jsGet] at h
  | bool b => simp [jsGet] at h
  | null => simp [jsGet] at h
  | arr items => simp [jsGet] at h

theorem applyMarks_ok : ∀ (marks : List JVal) (text : String),
    jWFList marks = true → isOkE (applyMarks marks text) = true := by
  intro marks
  induction marks with
  | nil => intro text _; rfl
  | cons m rest ih =>
    intro text hwf
    rw [jWFList_cons] at hwf
    simp only [Bool.and_eq_true] at hwf
    have hm := hwf.1
    have hrest := hwf.2
    cases m with
    | null => simp [jWF] at hm
    | str s => exact ih _ hrest
    | num n => exact ih _ hrest
    | bool b => exact ih _ hrest
    | arr items => exact ih _ hrest
    | obj fs => exact ih _ hrest

theorem textWithMarks_ok (fields : List (String × JVal))
    (hwf : jWF (.obj fields) = true) : isOkE (textWithMarks fields) = true := by
  have hwf0 := hwf
  rw [jWF_obj] at hwf
  simp only [Bool.and_eq_true] at hwf
  obtain ⟨⟨⟨hf, hmk⟩, hlv⟩, hic⟩ := hwf
  unfold textWithMarks
  cases hg : jsGet (.obj fields) "marks" with
  | none => rfl
  | some m =>
    unfold marksOK at hmk
    rw [hg] at hmk
    dsimp only at hmk
    by_cases ht : jsTruthy (some m) = true
    · simp only [ht, if_true]
      cases m with
      | arr marks =>
        have hwfm : jWF (.arr marks) = true := jWF_jsGet _ _ _ hwf0 hg
        rw [jWF_arr] at hwfm
        dsimp only
        exact applyMarks_ok marks _ hwfm
      | str s => rw [ht] at hmk; simp at hmk
      | num n => rw [ht] at hmk; simp at hmk
      | bool b => rw [ht] at hmk; simp at hmk
      | null => simp [jsTruthy] at ht
      | obj fs => rw [ht] at hmk; simp at hmk
    · simp only [Bool.not_eq_true] at ht
      simp only [ht, if_false]
      rfl

theorem extract_ok_aux : ∀ n : Nat,
    (∀ v : JVal, sizeOf v < n → jWF v = true →
        isOkE (extractTextContent v) = true ∧ isOkE (extractText v) = true) ∧
    (∀ l : List JVal, sizeOf l < n → jWFList l = true → isOkE (extractArr l) = true) := by
  intro n
  induction n with
  | zero =>
    constructor
    · intro v hs _; omega
    · intro l hs _; omega
  | succ n ih =>
    have hTC : ∀ v : JVal, sizeOf v < n + 1 → jWF v = true →
        isOkE (extractTextContent v) = true := by
      intro v hs hwf
      unfold extractTextContent
      cases hg : jsGet v "content" with
      | none => rfl
      | some c =>
        have hwc : jWF c = true := jWF_jsGet _ _ _ hwf hg
        have hsc : sizeOf c < sizeOf v := sizeOf_jsGet _ _ _ hg
        cases c with
        | arr items =>
          rw [jWF_arr] at hwc
          have hsi : sizeOf items < n := by
            simp only [JVal.arr.sizeOf_spec] at hsc; omega
          have ha := ih.2 items hsi hwc
          rcases (isOkE_iff _).mp ha with ⟨parts, hp⟩
          dsimp only
          rw [bindExc_ok _ _ _ hp]
          rfl
        | str s =>
          dsimp only
          by_cases ht : jsTruthy (some (JVal.str s)) = true
          · simp only [ht, if_true]
            exact (ih.1 _ (by omega) hwc).2
          · simp only [Bool.not_eq_true] at ht
            simp only [ht, if_false]; rfl
        | num m =>
          dsimp only
          by_cases ht : jsTruthy (some (JVal.num m)) = true
          · simp only [ht, if_true]
            exact (ih.1 _ (by omega) hwc).2
          · simp only [Bool.not_eq_true] at ht
            simp only [ht, if_false]; rfl
        | bool b =>
          dsimp only
          by_cases ht : jsTruthy (some (JVal.bool b)) = true
          · simp only [ht, if_true]
            exact (ih.1 _ (by omega) hwc).2
          · simp only [Bool.not_eq_true] at ht
            simp only [ht, if_false]; rfl
        | null => simp [jWF] at hwc
        | obj fs =>
          dsimp only
          by_cases ht : jsTruthy (some (JVal.obj fs)) = true
          · simp only [ht, if_true]
            exact (ih.1 _ (by omega) hwc).2
          · simp only [Bool.not_eq_true] at ht
            simp only [ht, if_false]; rfl
    have hT : ∀ v : JVal, sizeOf v < n + 1 → jWF v = true →
        isOkE (extractText v) = true := by
      intro v hs hwf
      cases v with
      | str s => unfold extractText; rfl
      | null => simp [jWF] at hwf
      | num m =>
        unfold extractText
        cases hg : jsGet (JVal.num m) "text" with
        | none => exact hTC _ hs hwf
        | some t =>
          by_cases ht : jsTruthy (some t) = true
          · simp only [ht, if_true]; rfl
          · simp only [Bool.not_eq_true] at ht
            simp only [ht, if_false]
            exact hTC _ hs hwf
      | bool b =>
        unfold extractText
        cases hg : jsGet (JVal.bool b) "text" with
        | none => exact hTC _ hs hwf
        | some t =>
          by_cases ht : jsTruthy (some t) = true
          · simp only [ht, if_true]; rfl
          · simp only [Bool.not_eq_true] at ht
            simp only [ht, if_false]
            exact hTC _ hs hwf
      | arr items =>
        unfold extractText
        cases hg : jsGet (JVal.arr items) "text" with
        | none => exact hTC _ hs hwf
        | some t =>
          by_cases ht : jsTruthy (some t) = true
          · simp only [ht, if_true]; rfl
          · simp only [Bool.not_eq_true] at ht
            simp only [ht, if_false]
            exact hTC _ hs hwf
      | obj fs =>
        unfold extractText
        cases hg : jsGet (JVal.obj fs) "text" with
        | none => exact hTC _ hs hwf
        | some t =>
          by_cases ht : jsTruthy (some t) = true
          · simp only [ht, if_true]; rfl
          · simp only [Bool.not_eq_true] at ht
            simp only [ht, if_false]
            exact hTC _ hs hwf
    refine ⟨fun v hs hwf => ⟨hTC v hs hwf, hT v hs hwf⟩, ?_⟩
    intro l hs hwf
    cases l with
    | nil => unfold extractArr; rfl
    | cons v rest =>
      rw [jWFList_cons] at hwf
      simp only [Bool.and_eq_true] at hwf
      have hsv : sizeOf v < n + 1 := by
        simp only [List.cons.sizeOf_spec] at hs; omega
      have hsr : sizeOf rest < n := by
        simp only [List.cons.sizeOf_spec] at hs; omega
      have h1 := hT v hsv hwf.1
      have h2 := ih.2 rest hsr hwf.2
      rcases (isOkE_iff _).mp h1 with ⟨s, hsv1⟩
      rcases (isOkE_iff _).mp h2 with ⟨srest, hsr1⟩
      unfold extractArr
      rw [bindExc_ok _ _ _ hsv1, bindExc_ok _ _ _ hsr1]
      rfl

theorem extractText_ok (v : JVal) (hwf : jWF v = true) : isOkE (extractText v) = true :=
  ((extract_ok_aux (sizeOf v + 1)).1 v (by omega) hwf).2

theorem extractArr_ok (l : List JVal) (hwf : jWFList l = true) : isOkE (extractArr l) = true :=
  (extract_ok_aux (sizeOf l + 1)).2 l (by omega) hwf

theorem bindExc_pure {α β : Type} (a : α) (f : α → Except JsTypeError β) :
    ((pure a : Except JsTypeError α) >>= f) = f a := rfl

theorem convertListItems_ok : ∀ (l : List JVal), jWFList l = true →
    isOkE (convertListItems l) = true := by
  intro l
  induction l with
  | nil => intro _; unfold convertListItems; rfl
  | cons item rest ih =>
    intro hwf
    rw [jWFList_cons] at hwf
    simp only [Bool.and_eq_true] at hwf
    rcases (isOkE_iff _).mp (ih hwf.2) with ⟨srest, hr⟩
    unfold convertListItems
    cases item with
    | null => simp [jWF] at hwf
    | str s =>
      have hc : (jsTypeIs (JVal.str s) "listItem" && jsTruthy (jsGet (JVal.str s) "content")) = false := rfl
      dsimp only
      rw [hc]
      simp only [Bool.false_eq_true, if_false]
      simp only [bindExc_pure]
      rw [bindExc_ok _ _ _ hr]
      rfl
    | num m =>
      have hc : (jsTypeIs (JVal.num m) "listItem" && jsTruthy (jsGet (JVal.num m) "content")) = false := rfl
      dsimp only
      rw [hc]
      simp only [Bool.false_eq_true, if_false]
      simp only [bindExc_pure]
      rw [bindExc_ok _ _ _ hr]
      rfl
    | bool b =>
      have hc : (jsTypeIs (JVal.bool b) "listItem" && jsTruthy (jsGet (JVal.bool b) "content")) = false := rfl
      dsimp only
      rw [hc]
      simp only [Bool.false_eq_true, if_false]
      simp only [bindExc_pure]
      rw [bindExc_ok _ _ _ hr]
      rfl
    | arr items =>
      have hc : (jsTypeIs (JVal.arr items) "listItem" && jsTruthy (jsGet (JVal.arr items) "content")) = false := rfl
      dsimp only
      rw [hc]
      simp only [Bool.false_eq_true, if_false]
      simp only [bindExc_pure]
      rw [bindExc_ok _ _ _ hr]
      rfl
    | obj fields =>
      have hwfo := hwf.1
      dsimp only
      by_cases hc : (jsTypeIs (JVal.obj fields) "listItem" && jsTruthy (jsGet (JVal.obj fields) "content")) = true
      · simp only [hc, if_true]
        have hic : itemContentOK fields = true := by
          rw [jWF_obj] at hwfo
          simp only [Bool.and_eq_true] at hwfo
          exact hwfo.2
        unfold itemContentOK at hic
        simp only [hc, if_true] at hic
        cases hg : jsGet (JVal.obj fields) "content" with
        | none => rw [hg] at hic; simp at hic
        | some c =>
          rw [hg] at hic
          cases c with
          | arr cs =>
            have hwfc : jWF (JVal.arr cs) = true := jWF_jsGet _ _ _ hwfo hg
            rw [jWF_arr] at hwfc
            rcases (isOkE_iff _).mp (extractArr_ok cs hwfc) with ⟨parts, hp⟩
            dsimp only
            rw [bindExc_ok _ _ _ hp]
            simp only [bindExc_pure]
            rw [bindExc_ok _ _ _ hr]
            rfl
          | str s => simp at hic
          | num m => simp at hic
          | bool b => simp at hic
          | null => simp at hic
          | obj fs2 => simp at hic
      · simp only [Bool.not_eq_true] at hc
        rw [hc]
        simp only [Bool.false_eq_true, if_false]
        simp only [bindExc_pure]
        rw [bindExc_ok _ _ _ hr]
        rfl

theorem convertList_ok (v : JVal) (hwf : jWF v = true) : isOkE (convertList v) = true := by
  unfold convertList
  cases hg : jsGet v "content" with
  | none => rfl
  | some c =>
    cases c with
    | arr items =>
      have hwfc : jWF (JVal.arr items) = true := jWF_jsGet _ _ _ hwf hg
      rw [jWF_arr] at hwfc
      rcases (isOkE_iff _).mp (convertListItems_ok items hwfc) with ⟨parts, hp⟩
      dsimp only
      rw [bindExc_ok _ _ _ hp]
      rfl
    | str s => rfl
    | num m => rfl
    | bool b => rfl
    | null => rfl
    | obj fs => rfl

theorem convert_ok_aux : ∀ n : Nat,
    (∀ v : JVal, sizeOf v < n → jWF v = true → isOkE (convertToMarkdown v) = true) ∧
    (∀ l : List JVal, sizeOf l < n → jWFList l = true → isOkE (convertArr l) = true) := by
  intro n
  induction n with
  | zero =>
    constructor
    · intro v hs _; omega
    · intro l hs _; omega
  | succ n ih =>
    have hM : ∀ v : JVal, sizeOf v < n + 1 → jWF v = true →
        isOkE (convertToMarkdown v) = true := by
      intro v hs hwf
      cases v with
      | str s => unfold convertToMarkdown; rfl
      | num m => unfold convertToMarkdown; rfl
      | bool b => unfold convertToMarkdown; rfl
      | null => simp [jWF] at hwf
      | arr items =>
        rw [jWF_arr] at hwf
        have hsi : sizeOf items < n := by
          simp only [JVal.arr.sizeOf_spec] at hs; omega
        rcases (isOkE_iff _).mp (ih.2 items hsi hwf) with ⟨parts, hp⟩
        unfold convertToMarkdown
        rw [bindExc_ok _ _ _ hp]
        rfl
      | obj fields =>
        unfold convertToMarkdown convertObj
        by_cases h1 : (jsTypeIs (JVal.obj fields) "doc" && jsTruthy (jsGet (JVal.obj fields) "content")) = true
        · rw [h1]
          simp only [if_true]
          cases hg : jsGet (JVal.obj fields) "content" with
          | none => rfl
          | some c =>
            have hwc : jWF c = true := jWF_jsGet _ _ _ hwf hg
            have hsc : sizeOf c < n := by
              have := sizeOf_jsGet _ _ _ hg; omega
            exact ih.1 c hsc hwc
        · simp only [Bool.not_eq_true] at h1
          rw [h1]
          simp only [Bool.false_eq_true, if_false]
          by_cases h2 : (jsTypeIs (JVal.obj fields) "paragraph" && jsTruthy (jsGet (JVal.obj fields) "content")) = true
          · rw [h2]
            simp only [if_true]
            cases hg : jsGet (JVal.obj fields) "content" with
            | none => rfl
            | some c =>
              have hwc : jWF c = true := jWF_jsGet _ _ _ hwf hg
              have hsc : sizeOf c < n := by
                have := sizeOf_jsGet _ _ _ hg; omega
              rcases (isOkE_iff _).mp (ih.1 c hsc hwc) with ⟨s, hsv⟩
              dsimp only
              rw [bindExc_ok _ _ _ hsv]
              rfl
          · simp only [Bool.not_eq_true] at h2
            rw [h2]
            simp only [Bool.false_eq_true, if_false]
            by_cases h3 : jsTypeIs (JVal.obj fields) "heading" = true
            · rw [h3]
              simp only [if_true]
              rcases (isOkE_iff _).mp (extractText_ok _ hwf) with ⟨text, htx⟩
              rw [bindExc_ok _ _ _ htx]
              have hlv : levelOK fields = true := by
                rw [jWF_obj] at hwf
                simp only [Bool.and_eq_true] at hwf
                exact hwf.1.2
              unfold levelOK at hlv
              cases hl : headingLevel fields with
              | error e => rw [hl] at hlv; simp at hlv
              | ok lvl => dsimp only; rfl
            · simp only [Bool.not_eq_true] at h3
              rw [h3]
              simp only [Bool.false_eq_true, if_false]
              by_cases h4 : (jsTypeIs (JVal.obj fields) "bulletList" || jsTypeIs (JVal.obj fields) "orderedList") = true
              · rw [h4]
                simp only [if_true]
                exact convertList_ok _ hwf
              · simp only [Bool.not_eq_true] at h4
                rw [h4]
                simp only [Bool.false_eq_true, if_false]
                by_cases h5 : jsTypeIs (JVal.obj fields) "listItem" = true
                · rw [h5]
                  simp only [if_true]
                  rcases (isOkE_iff _).mp (extractText_ok _ hwf) with ⟨text, htx⟩
                  rw [bindExc_ok _ _ _ htx]
                  rfl
                · simp only [Bool.not_eq_true] at h5
                  rw [h5]
                  simp only [Bool.false_eq_true, if_false]
                  by_cases h6 : jsTypeIs (JVal.obj fields) "text" = true
                  · rw [h6]
                    simp only [if_true]
                    exact textWithMarks_ok _ hwf
                  · simp only [Bool.not_eq_true] at h6
                    rw [h6]
                    simp only [Bool.false_eq_true, if_false]
                    cases hg : jsGet (JVal.obj fields) "content" with
                    | none => rfl
                    | some c =>
                      dsimp only
                      by_cases ht : jsTruthy (some c) = true
                      · rw [ht]
                        simp only [if_true]
                        have hwc : jWF c = true := jWF_jsGet _ _ _ hwf hg
                        have hsc : sizeOf c < n := by
                          have := sizeOf_jsGet _ _ _ hg; omega
                        exact ih.1 c hsc hwc
                      · simp only [Bool.not_eq_true] at ht
                        rw [ht]
                        simp only [Bool.false_eq_true, if_false]
                        rfl
    refine ⟨hM, ?_⟩
    intro l hs hwf
    cases l with
    | nil => unfold convertArr; rfl
    | cons v rest =>
      rw [jWFList_cons] at hwf
      simp only [Bool.and_eq_true] at hwf
      have hsv : sizeOf v < n + 1 := by
        simp only [List.cons.sizeOf_spec] at hs; omega
      have hsr : sizeOf rest < n := by
        simp only [List.cons.sizeOf_spec] at hs; omega
      rcases (isOkE_iff _).mp (hM v hsv hwf.1) with ⟨s, h1⟩
      rcases (isOkE_iff _).mp (ih.2 rest hsr hwf.2) with ⟨srest, h2⟩
      unfold convertArr
      rw [bindExc_ok _ _ _ h1, bindExc_ok _ _ _ h2]
      rfl

theorem convertToMarkdown_ok (v : JVal) (hwf : jWF v = true) :
    isOkE (convertToMarkdown v) = true :=
  (convert_ok_aux (sizeOf v + 1)).1 v (by omega) hwf

theorem convertObj_fallback (fields : List (String × JVal)) (c : JVal)
    (h1 : jsTypeIs (JVal.obj fields) "doc" = false)
    (h2 : jsTypeIs (JVal.obj fields) "paragraph" = false)
    (h3 : jsTypeIs (JVal.obj fields) "heading" = false)
    (h4 : jsTypeIs (JVal.obj fields) "bulletList" = false)
    (h5 : jsTypeIs (JVal.obj fields) "orderedList" = false)
    (h6 : jsTypeIs (JVal.obj fields) "listItem" = false)
    (h7 : jsTypeIs (JVal.obj fields) "text" = false)
    (hg : jsGet (JVal.obj fields) "content" = some c)
    (ht : jsTruthy (some c) = true) :
    convertToMarkdown (JVal.obj fields) = convertToMarkdown c := by
  unfold convertToMarkdown convertObj
  rw [h1, h2, h3, h4, h5, h6, h7]
  simp only [Bool.false_and, Bool.false_or, Bool.false_eq_true, if_false]
  cases hgc : jsGet (JVal.obj fields) "content" with
  | none => rw [hgc] at hg; exact absurd hg (by simp)
  | some c2 =>
    rw [hgc] at hg
    have hcc : c2 = c := Option.some.inj hg
    subst hcc
    dsimp only
    rw [ht]
    simp only [if_true]
    rw [convertToMarkdown.eq_def]
    cases c2 with
    | str s => rfl
    | num n => rfl
    | bool b => rfl
    | null => rfl
    | arr items => rfl
    | obj fs => dsimp only; rw [convertObj.eq_def]

/-- Claim C8, counterexample to "convertToMarkdown never throws for any
input value": a `text` node whose `marks` member is the number `42` is
truthy but not iterable, so the source's `for (const mark of content.marks)`
raises a `TypeError` — the conversion does not return a string. -/
theorem c8_convertToMarkdown_counterexample :
    convertToMarkdown (.obj [("type", .str "text"), ("text", .str "a"), ("marks", .num 42)]) =
      .error ⟨"marks is not iterable"⟩ := by
  unfold convertToMarkdown convertObj
  rfl

/-- Claim C8 (amended): on well-formed input — no `null` values, truthy
`marks` members are arrays, every truthy heading level `Number`-coerces to
a finite non-negative `repeat` count of at most 65535 (below every
platform's string-length cap), and a `listItem`'s truthy `content` is an
array — `convertToMarkdown` never raises; and a node whose `type` is not
one of the recognized tags falls back to converting its truthy `content`
recursively (the best-effort depth-first traversal). -/
theorem c8_convertToMarkdown_amended (v : JVal) (h : jWF v = true) :
    isOkE (convertToMarkdown v) = true ∧
    (∀ (fields : List (String × JVal)) (c : JVal),
      jsTypeIs (JVal.obj fields) "doc" = false →
      jsTypeIs (JVal.obj fields) "paragraph" = false →
      jsTypeIs (JVal.obj fields) "heading" = false →
      jsTypeIs (JVal.obj fields) "bulletList" = false →
      jsTypeIs (JVal.obj fields) "orderedList" = false →
      jsTypeIs (JVal.obj fields) "listItem" = false →
      jsTypeIs (JVal.obj fields) "text" = false →
      jsGet (JVal.obj fields) "content" = some c →
      jsTruthy (some c) = true →
      convertToMarkdown (JVal.obj fields) = convertToMarkdown c) :=
  ⟨convertToMarkdown_ok v h,
   fun fields c h1 h2 h3 h4 h5 h6 h7 hg ht =>
     convertObj_fallback fields c h1 h2 h3 h4 h5 h6 h7 hg ht⟩

/-- Witness for the amended claim C8 at a concrete well-formed input:
a paragraph containing a bold text node converts without raising. -/
theorem c8_convertToMarkdown_amended_witness :
    jWF (.obj [("type", .str "paragraph"),
        ("content", .arr [.obj [("type", .str "text"), ("text", .str "hello"),
          ("marks", .arr [.obj [("type", .str "bold")]])]])]) = true ∧
    isOkE (convertToMarkdown (.obj [("type", .str "paragraph"),
        ("content", .arr [.obj [("type", .str "text"), ("text", .str "hello"),
          ("marks", .arr [.obj [("type", .str "bold")]])]])])) = true :=
  ⟨by decide,
   (c8_convertToMarkdown_amended
     (.obj [("type", .str "paragraph"),
        ("content", .arr [.obj [("type", .str "text"), ("text", .str "hello"),
          ("marks", .arr [.obj [("type", .str "bold")]])]])])
     (by decide)).1⟩

